import Mathlib

/-!
Verification of the BMT (Binary Merkle Tree) content-addressing library.

This file contains a shallow embedding of the library's core:
the span codec (`src/span.ts`), the per-chunk BMT functions (`chunk.ts`),
and the chunked-file builder with its carrier-chunk logic (`src/file.ts`).
Byte arrays are modelled as `List Nat`, JavaScript numbers on the integer
range as `Nat`/`Int`, thrown exceptions as `Option.none`, and unbounded
`while` loops as fuel-indexed recursion returning `none` when the fuel runs
out (so a function that provably returns `none` for every fuel models a
non-terminating loop).  The Keccak-256 primitive is an external dependency
of the library (`js-sha3`), so it is modelled as an arbitrary function
producing 32 bytes; the embedding threads it through exactly the call graph
of the source.
-/

set_option maxRecDepth 10000

/-- A 32-byte hash value: the output type of the hashing capability. -/
abbrev Hash32 : Type := { l : List Nat // l.length = 32 }

/-- The hashing capability (`keccak256Hash` in `utils.ts` or an injected
`hashFn`): maps the concatenation of its byte-array arguments to 32 bytes. -/
abbrev HashFn : Type := List Nat → Hash32

/-- `SEGMENT_SIZE` from `chunk.ts`. -/
def SEGMENT_SIZE : Nat := 32

/-- `DEFAULT_MAX_PAYLOAD_SIZE` from `chunk.ts`. -/
def DEFAULT_MAX_PAYLOAD_SIZE : Nat := 4096

/-- `DEFAULT_SPAN_SIZE` from `span.ts`. -/
def DEFAULT_SPAN_SIZE : Nat := 8

/-- `MAX_SPAN_LENGTH = Number.MAX_SAFE_INTEGER` from `span.ts`. -/
def MAX_SPAN_LENGTH : Nat := 2 ^ 53 - 1

/-- `makeSpan(value, length?)` from `src/span.ts`.  The `length` argument is
optional; JavaScript's `length || DEFAULT_SPAN_SIZE` treats both an absent
argument and `0` as the default 8.  The function throws for a negative value
and for a value above `MAX_SPAN_LENGTH`; after those checks it writes the
low 32 bits at offset 0 and the high 32 bits at offset 4 of a zeroed buffer
through a `DataView`, which raises a `RangeError` whenever the buffer is
shorter than 8 bytes. -/
def makeSpan (value : Int) (length : Option Nat) : Option (List Nat) :=
  let spanLength : Nat :=
    match length with
    | none => DEFAULT_SPAN_SIZE
    | some 0 => DEFAULT_SPAN_SIZE
    | some n => n
  if value < 0 then none
  else if value > (MAX_SPAN_LENGTH : Int) then none
  else if spanLength < 8 then none
  else
    let v := value.toNat
    let lo := v % 2 ^ 32
    let hi := v / 2 ^ 32
    some ([lo % 256, lo / 2 ^ 8 % 256, lo / 2 ^ 16 % 256, lo / 2 ^ 24 % 256,
           hi % 256, hi / 2 ^ 8 % 256, hi / 2 ^ 16 % 256, hi / 2 ^ 24 % 256]
          ++ List.replicate (spanLength - 8) 0)

/-- `getSpanValue(span)` from `src/span.ts`: reads two little-endian 32-bit
words (a `RangeError` if the buffer is shorter than 8 bytes) and throws when
the combined value exceeds the safe-integer range. -/
def getSpanValue (span : List Nat) : Option Nat :=
  if span.length < 8 then none
  else
    let b := fun i => span.getD i 0
    let lo := b 0 + b 1 * 2 ^ 8 + b 2 * 2 ^ 16 + b 3 * 2 ^ 24
    let hi := (b 4 + b 5 * 2 ^ 8 + b 6 * 2 ^ 16 + b 7 * 2 ^ 24) * 2 ^ 32
    let value := lo + hi
    if value > MAX_SPAN_LENGTH then none else some value

/-- Splits a list into consecutive runs of `n` elements (the last run may be
shorter).  This is the `for (offset = 0; offset < len; offset += n)` slicing
pattern used by `leafChunks` and `nextBmtLevel` in `src/file.ts`. -/
def groupsOf (n : Nat) : List α → List (List α)
  | [] => []
  | a :: t =>
    if n = 0 then []
    else ((a :: t).take n) :: groupsOf n ((a :: t).drop n)
termination_by l => l.length
decreasing_by
  simp only [List.length_drop, List.length_cons]
  omega

theorem groupsOf_nil (n : Nat) : groupsOf n ([] : List α) = [] := by
  rw [groupsOf]

theorem groupsOf_zero (l : List α) : groupsOf 0 l = [] := by
  cases l <;> simp [groupsOf]

theorem groupsOf_cons (n : Nat) (l : List α) (hn : n ≠ 0) (hl : l ≠ []) :
    groupsOf n l = l.take n :: groupsOf n (l.drop n) := by
  rcases l with _ | ⟨a, t⟩
  · simp at hl
  · rw [groupsOf]
    simp [hn]

theorem groupsOf_drop_length {α : Type _} (l : List α) (n : Nat)
    (hn : n ≠ 0) (hl : l ≠ []) : (l.drop n).length < l.length := by
  have hpos : 0 < l.length := List.length_pos.mpr hl
  simp only [List.length_drop]
  omega

/-- Reassembling the runs gives back the original list. -/
theorem join_groupsOf (n : Nat) (hn : n ≠ 0) (l : List α) :
    (groupsOf n l).flatten = l := by
  generalize hN : l.length = N
  induction N using Nat.strong_induction_on generalizing l with
  | _ N ih =>
    subst hN
    rcases eq_or_ne l [] with rfl | hl
    · simp [groupsOf_nil]
    · rw [groupsOf_cons n l hn hl]
      simp [ih _ (groupsOf_drop_length l n hn hl) _ rfl]

theorem length_groupsOf (n : Nat) (hn : n ≠ 0) (l : List α) :
    (groupsOf n l).length = (l.length + (n - 1)) / n := by
  generalize hN : l.length = N
  induction N using Nat.strong_induction_on generalizing l with
  | _ N ih =>
    subst hN
    rcases eq_or_ne l [] with rfl | hl
    · simp [groupsOf_nil]
      exact (Nat.div_eq_of_lt (by omega)).symm
    · rw [groupsOf_cons n l hn hl]
      have hpos : 0 < l.length := List.length_pos.mpr hl
      rw [List.length_cons, ih _ (groupsOf_drop_length l n hn hl) _ rfl]
      simp only [List.length_drop]
      rcases Nat.lt_or_ge l.length n with hlt | hge
      · have h4 : l.length + (n - 1) = (l.length - 1) + n := by omega
        rw [Nat.sub_eq_zero_of_le (le_of_lt hlt), h4,
          Nat.add_div_right _ (by omega), Nat.zero_add,
          Nat.div_eq_of_lt (by omega : n - 1 < n),
          Nat.div_eq_of_lt (by omega : l.length - 1 < n)]
      · have h4 : l.length + (n - 1) = (l.length - n + (n - 1)) + n := by omega
        rw [h4, Nat.add_div_right _ (by omega)]

/-- Every element of a run is an element of the original list. -/
theorem mem_of_mem_groupsOf {n : Nat} {l : List α} {g : List α} {a : α}
    (hg : g ∈ groupsOf n l) (ha : a ∈ g) : a ∈ l := by
  rcases eq_or_ne n 0 with rfl | hn
  · simp [groupsOf_zero] at hg
  · have := join_groupsOf n hn l
    rw [← this]
    exact List.mem_flatten.mpr ⟨g, hg, ha⟩

theorem groupsOf_length_le (n : Nat) (l : List α) (g : List α)
    (hg : g ∈ groupsOf n l) : g.length ≤ n := by
  revert hg
  generalize hN : l.length = N
  induction N using Nat.strong_induction_on generalizing l with
  | _ N ih =>
    subst hN
    intro hg
    rcases eq_or_ne n 0 with rfl | hn
    · simp [groupsOf_zero] at hg
    · rcases eq_or_ne l [] with rfl | hl
      · simp [groupsOf_nil] at hg
      · rw [groupsOf_cons n l hn hl] at hg
        rcases List.mem_cons.mp hg with hg | hg
        · subst hg
          simp only [List.length_take]
          omega
        · exact ih _ (groupsOf_drop_length l n hn hl) _ rfl hg

theorem groupsOf_ne_nil_mem (n : Nat) (l : List α) (g : List α)
    (hg : g ∈ groupsOf n l) : g ≠ [] := by
  revert hg
  generalize hN : l.length = N
  induction N using Nat.strong_induction_on generalizing l with
  | _ N ih =>
    subst hN
    intro hg
    rcases eq_or_ne n 0 with rfl | hn
    · simp [groupsOf_zero] at hg
    · rcases eq_or_ne l [] with rfl | hl
      · simp [groupsOf_nil] at hg
      · rw [groupsOf_cons n l hn hl] at hg
        rcases List.mem_cons.mp hg with hg | hg
        · subst hg
          simp only [ne_eq, List.take_eq_nil_iff]
          push_neg
          exact ⟨hn, hl⟩
        · exact ih _ (groupsOf_drop_length l n hn hl) _ rfl hg

/-- The little-endian byte encoding of `v` over `len` bytes (zero bytes
beyond the significant ones), used to state what `makeSpan` writes. -/
def spanEncoding (v : Nat) (len : Nat) : List Nat :=
  (List.range len).map (fun i => v / 256 ^ i % 256)

theorem spanEncoding_length (v len : Nat) : (spanEncoding v len).length = len := by
  simp [spanEncoding]

theorem makeSpan_bytes (v : Nat) (r : Nat) (hv : v < 2 ^ 53) (hr : 8 ≤ r) :
    [v % 2 ^ 32 % 256, v % 2 ^ 32 / 2 ^ 8 % 256, v % 2 ^ 32 / 2 ^ 16 % 256,
     v % 2 ^ 32 / 2 ^ 24 % 256, v / 2 ^ 32 % 256, v / 2 ^ 32 / 2 ^ 8 % 256,
     v / 2 ^ 32 / 2 ^ 16 % 256, v / 2 ^ 32 / 2 ^ 24 % 256]
      ++ List.replicate (r - 8) 0 = spanEncoding v r := by
  refine List.ext_getElem ?_ ?_
  · simp only [List.length_append, List.length_replicate, List.length_cons,
      List.length_nil, spanEncoding_length]
    omega
  · intro i h1 h2
    simp only [spanEncoding, List.getElem_map, List.getElem_range]
    rcases Nat.lt_or_ge i 8 with hi | hi
    · rw [List.getElem_append_left (by simp only [List.length_cons, List.length_nil]; omega)]
      interval_cases i <;>
        simp only [List.getElem_cons_zero, List.getElem_cons_succ] <;>
        (try rw [Nat.div_div_eq_div_mul]) <;> norm_num <;> omega
    · rw [List.getElem_append_right (by simp only [List.length_cons, List.length_nil]; omega)]
      simp only [List.length_cons, List.length_nil, List.getElem_replicate]
      have hz : v / 256 ^ i = 0 := by
        apply Nat.div_eq_of_lt
        calc v < 2 ^ 53 := hv
          _ ≤ 256 ^ 8 := by norm_num
          _ ≤ 256 ^ i := Nat.pow_le_pow_right (by omega) hi
      simp [hz]

theorem makeSpan_eq_spanEncoding (v : Nat) (len : Nat)
    (hv : v ≤ MAX_SPAN_LENGTH) (hlen : len = 0 ∨ 8 ≤ len) :
    makeSpan (v : Int) (some len) =
      some (spanEncoding v (if len = 0 then 8 else len)) := by
  have hv' : v < 2 ^ 53 := by
    simp only [MAX_SPAN_LENGTH] at hv
    omega
  rcases len with _ | m
  · simp only [if_pos rfl]
    simp only [makeSpan, DEFAULT_SPAN_SIZE]
    rw [if_neg (by omega), if_neg (by simp only [MAX_SPAN_LENGTH]; omega),
      if_neg (by omega)]
    simp only [Int.toNat_natCast, Option.some.injEq]
    exact makeSpan_bytes v 8 hv' (by omega)
  · have h8 : 8 ≤ m + 1 := by
      rcases hlen with h | h
      · exact absurd h (by omega)
      · exact h
    simp only [if_neg (by omega : ¬ m + 1 = 0)]
    simp only [makeSpan, DEFAULT_SPAN_SIZE]
    rw [if_neg (by omega), if_neg (by simp only [MAX_SPAN_LENGTH]; omega),
      if_neg (by omega)]
    simp only [Int.toNat_natCast, Option.some.injEq]
    exact makeSpan_bytes v (m + 1) hv' h8

theorem makeSpan_none_eq (v : Nat) (hv : v ≤ MAX_SPAN_LENGTH) :
    makeSpan (v : Int) none = some (spanEncoding v 8) := by
  have hv' : v < 2 ^ 53 := by
    simp only [MAX_SPAN_LENGTH] at hv
    omega
  simp only [makeSpan, DEFAULT_SPAN_SIZE]
  rw [if_neg (by omega), if_neg (by simp only [MAX_SPAN_LENGTH]; omega),
    if_neg (by omega)]
  simp only [Int.toNat_natCast, Option.some.injEq]
  exact makeSpan_bytes v 8 hv' (by omega)

theorem getSpanValue_spanEncoding (v : Nat) (r : Nat)
    (hv : v ≤ MAX_SPAN_LENGTH) (hr : 8 ≤ r) :
    getSpanValue (spanEncoding v r) = some v := by
  have hv' : v < 2 ^ 53 := by
    simp only [MAX_SPAN_LENGTH] at hv
    omega
  have hlen : (spanEncoding v r).length = r := spanEncoding_length v r
  have hb : ∀ i, i < 8 → (spanEncoding v r).getD i 0 = v / 256 ^ i % 256 := by
    intro i hi
    rw [List.getD_eq_getElem _ _ (by omega)]
    simp [spanEncoding]
  simp only [getSpanValue, hlen, if_neg (by omega : ¬ r < 8)]
  rw [hb 0 (by omega), hb 1 (by omega), hb 2 (by omega), hb 3 (by omega),
    hb 4 (by omega), hb 5 (by omega), hb 6 (by omega), hb 7 (by omega)]
  have hsum : v / 256 ^ 0 % 256 + v / 256 ^ 1 % 256 * 2 ^ 8 +
      v / 256 ^ 2 % 256 * 2 ^ 16 + v / 256 ^ 3 % 256 * 2 ^ 24 +
      (v / 256 ^ 4 % 256 + v / 256 ^ 5 % 256 * 2 ^ 8 +
        v / 256 ^ 6 % 256 * 2 ^ 16 + v / 256 ^ 7 % 256 * 2 ^ 24) * 2 ^ 32 = v := by
    norm_num
    omega
  rw [hsum, if_neg (by simp only [MAX_SPAN_LENGTH]; omega)]

/-- Resolution of a JavaScript `x || d` default on an optional numeric
option: an absent value and `0` both fall back to the default. -/
def resolveOr (o : Option Nat) (d : Nat) : Nat :=
  match o with
  | none => d
  | some 0 => d
  | some n => n

/-- Resolution of the optional `hashFn` capability against the default
Keccak-256 (`options?.hashFn ? options.hashFn : keccak256Hash`). -/
def resolveHashFn (K : HashFn) (o : Option HashFn) : HashFn :=
  o.getD K

/-- `data()` of a chunk: the payload right-padded with zero bytes. -/
def chunkPad (payload : List Nat) (maxLength : Nat) : List Nat :=
  payload ++ List.replicate (maxLength - payload.length) 0

theorem chunkPad_length (payload : List Nat) (maxLength : Nat)
    (h : payload.length ≤ maxLength) : (chunkPad payload maxLength).length = maxLength := by
  simp only [chunkPad, List.length_append, List.length_replicate]
  omega

/-- One round of the BMT loop from `chunk.ts`: hash the adjacent 64-byte
segment pairs of the buffer, producing a buffer of half the length. -/
def hashSegmentPairs (H : HashFn) (input : List Nat) : List Nat :=
  ((groupsOf 64 input).map (fun b => (H b).val)).flatten

theorem hashSegmentPairs_length (H : HashFn) (input : List Nat)
    (h : input.length % 64 = 0) :
    (hashSegmentPairs H input).length = input.length / 2 := by
  simp only [hashSegmentPairs, List.length_flatten, List.map_map]
  have hconst : List.map (List.length ∘ fun b => (H b).val) (groupsOf 64 input) =
      List.map (fun _ => 32) (groupsOf 64 input) := by
    apply List.map_congr_left
    intro b _
    exact (H b).property
  rw [hconst, List.map_const', List.sum_replicate, smul_eq_mul,
    length_groupsOf 64 (by omega) input]
  omega

/-- The `while (input.length !== HASH_SIZE)` hashing loop of `bmtRootHash`
in `chunk.ts`, indexed by fuel.  Every caller in the library presents a
4096-byte padded buffer, for which the loop runs exactly 7 times, so the
fixed fuel 8 used below is exact at all call sites. -/
def bmtRootHashLoop (H : HashFn) (fuel : Nat) (input : List Nat) : Option (List Nat) :=
  if input.length = 32 then some input
  else
    match fuel with
    | 0 => none
    | f + 1 => bmtRootHashLoop H f (hashSegmentPairs H input)

/-- `bmtRootHash(payload, maxPayloadLength?, options?)` from `chunk.ts`:
fails when the payload exceeds the maximum, then repeatedly hashes segment
pairs of the zero-padded buffer down to a single 32-byte root.  The ambient
`K` is the default Keccak-256 capability; `options` may override it. -/
def bmtRootHash (K : HashFn) (payload : List Nat) (maxPayloadLength : Nat)
    (options : Option HashFn) : Option (List Nat) :=
  if payload.length > maxPayloadLength then none
  else bmtRootHashLoop (resolveHashFn K options) 8 (chunkPad payload maxPayloadLength)

theorem bmtRootHashLoop_some (H : HashFn) (k : Nat) :
    ∀ fuel input, k ≤ fuel → (input : List Nat).length = 32 * 2 ^ k →
      ∃ r, bmtRootHashLoop H fuel input = some r ∧ r.length = 32 := by
  induction k with
  | zero =>
    intro fuel input _ hlen
    refine ⟨input, ?_, by simpa using hlen⟩
    rw [bmtRootHashLoop.eq_def, if_pos (by simpa using hlen)]
  | succ k ih =>
    intro fuel input hfuel hlen
    have hne : input.length ≠ 32 := by
      rw [hlen]
      have : 2 ≤ 2 ^ (k + 1) := by
        calc 2 = 2 ^ 1 := rfl
        _ ≤ 2 ^ (k + 1) := Nat.pow_le_pow_right (by omega) (by omega)
      omega
    rcases fuel with _ | f
    · omega
    · rw [bmtRootHashLoop.eq_def, if_neg hne]
      have hmod : input.length % 64 = 0 := by
        rw [hlen]
        have : 32 * 2 ^ (k + 1) = 64 * 2 ^ k := by ring
        rw [this]
        omega
      have hnext : (hashSegmentPairs H input).length = 32 * 2 ^ k := by
        rw [hashSegmentPairs_length H input hmod, hlen]
        have : 32 * 2 ^ (k + 1) = (32 * 2 ^ k) * 2 := by ring
        rw [this]
        omega
      exact ih f _ (by omega) hnext

theorem bmtRootHash_some (K : HashFn) (payload : List Nat) (options : Option HashFn)
    (h : payload.length ≤ 4096) :
    ∃ r, bmtRootHash K payload DEFAULT_MAX_PAYLOAD_SIZE options = some r ∧ r.length = 32 := by
  have hpad : (chunkPad payload DEFAULT_MAX_PAYLOAD_SIZE).length = 32 * 2 ^ 7 :=
    chunkPad_length payload DEFAULT_MAX_PAYLOAD_SIZE h
  rw [bmtRootHash, if_neg (by simp only [DEFAULT_MAX_PAYLOAD_SIZE]; omega)]
  exact bmtRootHashLoop_some (resolveHashFn K options) 7 8 _ (by omega) hpad

/-- The tree-recording variant of the hashing loop (`bmt` in `chunk.ts`):
pushes each buffer before halving it and appends the final 32-byte root. -/
def bmtTreeLoop (H : HashFn) (fuel : Nat) (input : List Nat) : Option (List (List Nat)) :=
  if input.length = 32 then some [input]
  else
    match fuel with
    | 0 => none
    | f + 1 => (bmtTreeLoop H f (hashSegmentPairs H input)).map (input :: ·)

/-- `bmt(payload, options?)` from `chunk.ts`: all levels of the in-chunk
BMT of the payload padded to the hard-coded `DEFAULT_MAX_PAYLOAD_SIZE`,
leaves first, root (32 bytes) last. -/
def chunkBmt (K : HashFn) (payload : List Nat) (options : Option HashFn) :
    Option (List (List Nat)) :=
  if payload.length > DEFAULT_MAX_PAYLOAD_SIZE then none
  else bmtTreeLoop (resolveHashFn K options) 8 (chunkPad payload DEFAULT_MAX_PAYLOAD_SIZE)

theorem bmtTreeLoop_some (H : HashFn) (k : Nat) :
    ∀ fuel input, k ≤ fuel → (input : List Nat).length = 32 * 2 ^ k →
      ∃ t, bmtTreeLoop H fuel input = some t := by
  induction k with
  | zero =>
    intro fuel input _ hlen
    refine ⟨[input], ?_⟩
    rw [bmtTreeLoop.eq_def, if_pos (by simpa using hlen)]
  | succ k ih =>
    intro fuel input hfuel hlen
    have hne : input.length ≠ 32 := by
      rw [hlen]
      have : 2 ≤ 2 ^ (k + 1) := by
        calc 2 = 2 ^ 1 := rfl
        _ ≤ 2 ^ (k + 1) := Nat.pow_le_pow_right (by omega) (by omega)
      omega
    rcases fuel with _ | f
    · omega
    · rw [bmtTreeLoop.eq_def, if_neg hne]
      have hmod : input.length % 64 = 0 := by
        rw [hlen]
        have : 32 * 2 ^ (k + 1) = 64 * 2 ^ k := by ring
        rw [this]
        omega
      have hnext : (hashSegmentPairs H input).length = 32 * 2 ^ k := by
        rw [hashSegmentPairs_length H input hmod, hlen]
        have : 32 * 2 ^ (k + 1) = (32 * 2 ^ k) * 2 := by ring
        rw [this]
        omega
      obtain ⟨t, ht⟩ := ih f _ (by omega) hnext
      exact ⟨input :: t, by simp [ht]⟩

theorem chunkBmt_some (K : HashFn) (payload : List Nat) (options : Option HashFn)
    (h : payload.length ≤ 4096) :
    ∃ t, chunkBmt K payload options = some t := by
  have hpad : (chunkPad payload DEFAULT_MAX_PAYLOAD_SIZE).length = 32 * 2 ^ 7 :=
    chunkPad_length payload DEFAULT_MAX_PAYLOAD_SIZE h
  rw [chunkBmt, if_neg (by simp only [DEFAULT_MAX_PAYLOAD_SIZE]; omega)]
  exact bmtTreeLoop_some (resolveHashFn K options) 7 8 _ (by omega) hpad

/-- The sister-collection loop of `inclusionProofBottomUp` in `chunk.ts`:
for each tree level below the root, slice out the 32-byte neighbour of the
current segment index and halve the index. -/
def sisterSegmentsLoop : List (List Nat) → Nat → List (List Nat)
  | [], _ => []
  | level :: rest, si =>
    let sisterIndex := if si % 2 = 0 then si + 1 else si - 1
    ((level.drop (sisterIndex * SEGMENT_SIZE)).take SEGMENT_SIZE) ::
      sisterSegmentsLoop rest (si / 2)

/-- `inclusionProofBottomUp(payloadBytes, segmentIndex, options?)` from
`chunk.ts`: fails when `segmentIndex * 32` is not below the length of the
byte array it is handed, then walks the in-chunk BMT collecting sister
segments. -/
def inclusionProofBottomUp (K : HashFn) (payloadBytes : List Nat)
    (segmentIndex : Nat) (options : Option HashFn) : Option (List (List Nat)) :=
  if segmentIndex * SEGMENT_SIZE ≥ payloadBytes.length then none
  else (chunkBmt K payloadBytes options).map
    (fun tree => sisterSegmentsLoop tree.dropLast segmentIndex)

theorem inclusionProofBottomUp_isSome (K : HashFn) (payloadBytes : List Nat)
    (segmentIndex : Nat) (options : Option HashFn) :
    (inclusionProofBottomUp K payloadBytes segmentIndex options).isSome ↔
      (segmentIndex * SEGMENT_SIZE < payloadBytes.length ∧ payloadBytes.length ≤ 4096) := by
  rw [inclusionProofBottomUp]
  rcases Nat.lt_or_ge (segmentIndex * SEGMENT_SIZE) payloadBytes.length with hlt | hge
  · rw [if_neg (by omega)]
    rcases Nat.lt_or_ge 4096 payloadBytes.length with hgt | hle
    · rw [chunkBmt, if_pos (by simp only [DEFAULT_MAX_PAYLOAD_SIZE]; omega)]
      simp
      omega
    · obtain ⟨t, ht⟩ := chunkBmt_some K payloadBytes options hle
      simp [ht, hlt, hle]
  · rw [if_pos hge]
    simp
    omega

/-- `chunkAddress(payload, spanLength?, chunkSpan?, options?)` from
`chunk.ts`: hashes the span together with the BMT root.  Note that the
internal `bmtRootHash(payload)` call passes neither the options nor a
maximum payload length, so the root is always computed with the default
Keccak-256 capability `K` over a 4096-byte padding, even when `options`
carries a custom hash function; only the final span-plus-root hash uses the
resolved capability. -/
def chunkAddress (K : HashFn) (payload : List Nat) (spanLength : Option Nat)
    (chunkSpan : Option (List Nat)) (options : Option HashFn) : Option (List Nat) :=
  let H := resolveHashFn K options
  (match chunkSpan with
   | some s => some s
   | none => makeSpan (payload.length : Int) spanLength).bind fun span =>
  (bmtRootHash K payload DEFAULT_MAX_PAYLOAD_SIZE none).bind fun rootHash =>
  some (H (span ++ rootHash)).val

/-- The options record accepted by `makeChunk` in `chunk.ts`. -/
structure ChunkOptions where
  maxPayloadSize : Option Nat
  spanLength : Option Nat
  startingSpanValue : Option Nat
  hashFn : Option HashFn

/-- `makeChunk` called without options. -/
def noChunkOptions : ChunkOptions := ⟨none, none, none, none⟩

/-- A chunk value as produced by `makeChunk` in `chunk.ts`: the payload and
the three resolved construction parameters, plus the optionally injected
hash capability.  The lazily computed members (`data`, `span`, `address`,
`inclusionProof`) are modelled as functions on this record below. -/
structure Chunk where
  payload : List Nat
  spanValue : Nat
  maxPayloadLength : Nat
  spanLength : Nat
  hashFn : Option HashFn

/-- `makeChunk(payloadBytes, options?)` from `chunk.ts`: resolves the
defaults with JavaScript `||` semantics (`startingSpanValue: 0` therefore
falls back to the payload length), and fails via `assertFlexBytes` when the
payload exceeds the resolved maximum (the minimum is 0). -/
def makeChunk (payload : List Nat) (options : ChunkOptions) : Option Chunk :=
  let maxPayloadLength := resolveOr options.maxPayloadSize DEFAULT_MAX_PAYLOAD_SIZE
  let spanLength := resolveOr options.spanLength DEFAULT_SPAN_SIZE
  let spanValue := resolveOr options.startingSpanValue payload.length
  if payload.length > maxPayloadLength then none
  else some ⟨payload, spanValue, maxPayloadLength, spanLength, options.hashFn⟩

/-- `chunk.data()`: the payload right-padded with zeros to the chunk's
maximum payload length. -/
def Chunk.data (c : Chunk) : List Nat :=
  chunkPad c.payload c.maxPayloadLength

/-- `chunk.span()`: the span bytes of the chunk's recorded span value. -/
def Chunk.span (c : Chunk) : Option (List Nat) :=
  makeSpan (c.spanValue : Int) (some c.spanLength)

/-- `chunk.address()`: evaluates `span()` and hands it to `chunkAddress`
together with an options record holding the chunk's resolved hash
capability. -/
def Chunk.address (K : HashFn) (c : Chunk) : Option (List Nat) :=
  (c.span).bind fun sp =>
    chunkAddress K c.payload (some c.spanLength) (some sp)
      (some (resolveHashFn K c.hashFn))

/-- `chunk.inclusionProof(segmentIndex)`: runs `inclusionProofBottomUp` on
the padded `data()` bytes with the chunk's resolved hash capability. -/
def Chunk.inclusionProof (K : HashFn) (c : Chunk) (segmentIndex : Nat) :
    Option (List (List Nat)) :=
  inclusionProofBottomUp K c.data segmentIndex (some (resolveHashFn K c.hashFn))

theorem Chunk.span_some (c : Chunk) (h8 : c.spanLength = 8 ∨ c.spanLength = 0)
    (hv : c.spanValue ≤ MAX_SPAN_LENGTH) :
    c.span = some (spanEncoding c.spanValue 8) := by
  rcases h8 with h | h
  · have := makeSpan_eq_spanEncoding c.spanValue c.spanLength hv (by omega)
    rw [Chunk.span, this, h]
    norm_num
  · have := makeSpan_eq_spanEncoding c.spanValue c.spanLength hv (by omega)
    rw [Chunk.span, this, h]
    norm_num

theorem Chunk.address_some (K : HashFn) (c : Chunk)
    (h8 : c.spanLength = 8) (hv : c.spanValue ≤ MAX_SPAN_LENGTH)
    (hp : c.payload.length ≤ 4096) :
    ∃ a, Chunk.address K c = some a ∧ a.length = 32 := by
  obtain ⟨r, hr, _⟩ := bmtRootHash_some K c.payload none hp
  have hsp := Chunk.span_some c (Or.inl h8) hv
  refine ⟨((resolveHashFn K c.hashFn) (spanEncoding c.spanValue 8 ++ r)).val, ?_, ?_⟩
  · rw [Chunk.address, hsp]
    simp [chunkAddress, hr, resolveHashFn]
  · exact ((resolveHashFn K c.hashFn) (spanEncoding c.spanValue 8 ++ r)).property

/-- Effectful map over `Option` (the sequential `for`-loop-with-push pattern
of the source): stops at the first failure. -/
def mapMOption (f : α → Option β) : List α → Option (List β)
  | [] => some []
  | a :: t => (f a).bind fun b => (mapMOption f t).map (b :: ·)

theorem mapMOption_eq_some_of_forall (f : α → Option β) (l : List α)
    (h : ∀ a ∈ l, (f a).isSome = true) :
    ∃ bs, mapMOption f l = some bs ∧ bs.length = l.length := by
  induction l with
  | nil => exact ⟨[], rfl, rfl⟩
  | cons a t ih =>
    obtain ⟨b, hb⟩ := Option.isSome_iff_exists.mp (h a (by simp))
    obtain ⟨bs, hbs, hlen⟩ := ih (fun x hx => h x (by simp [hx]))
    refine ⟨b :: bs, ?_, by simp [hlen]⟩
    rw [mapMOption, hb, Option.some_bind, hbs, Option.map_some']

theorem mapMOption_some_getElem (f : α → Option β) (l : List α) (bs : List β)
    (h : mapMOption f l = some bs) :
    bs.length = l.length ∧
      ∀ i (hi : i < l.length) (hb : i < bs.length), f (l[i]) = some (bs[i]) := by
  induction l generalizing bs with
  | nil =>
    rw [mapMOption] at h
    cases h
    refine ⟨rfl, ?_⟩
    intro i hi hb
    simp at hi
  | cons a t ih =>
    rw [mapMOption] at h
    rcases hfa : f a with _ | b
    · rw [hfa, Option.none_bind] at h
      cases h
    · rw [hfa, Option.some_bind] at h
      rcases hrest : mapMOption f t with _ | bs1
      · rw [hrest, Option.map_none'] at h
        cases h
      · rw [hrest, Option.map_some'] at h
        cases h
        obtain ⟨hlen, hall⟩ := ih bs1 hrest
        refine ⟨by simp [hlen], ?_⟩
        intro i hi hb
        rcases i with _ | j
        · simpa using hfa
        · simpa using hall j (by simpa using hi) (by simpa using hb)

/-- A placeholder chunk used only to give `List.headD` a default; every use
site first checks that the list is long enough for the head to exist. -/
def dummyChunk : Chunk := ⟨[], 0, 0, 0, none⟩

/-- `leafChunks()` of `makeChunkedFile` in `src/file.ts` with the default
options: slices the payload into windows of `DEFAULT_MAX_PAYLOAD_SIZE`
bytes (an empty payload yields no window at all, because the slicing loop
condition `offset < payload.length` fails immediately) and wraps each
window with `makeChunk`. -/
def leafChunks (payload : List Nat) : Option (List Chunk) :=
  mapMOption (fun s => makeChunk s noChunkOptions) (groupsOf DEFAULT_MAX_PAYLOAD_SIZE payload)

/-- `span()` of `makeChunkedFile` in `src/file.ts` with the default span
length. -/
def fileSpan (payload : List Nat) : Option (List Nat) :=
  makeSpan (payload.length : Int) (some DEFAULT_SPAN_SIZE)

/-- `createIntermediateChunk(childrenChunks, spanLength, maxPayloadSize)`
from `src/file.ts`: the parent chunk whose payload is the concatenation of
the children's addresses and whose starting span value is the sum of the
children's decoded spans (`Array.prototype.reduce` throws on an empty
array). -/
def createIntermediateChunk (K : HashFn) (childrenChunks : List Chunk)
    (spanLength maxPayloadSize : Nat) : Option Chunk :=
  (mapMOption (Chunk.address K) childrenChunks).bind fun chunkAddresses =>
  (mapMOption (fun c => (Chunk.span c).bind getSpanValue) childrenChunks).bind fun spanValues =>
  match spanValues with
  | [] => none
  | _ :: _ =>
    makeChunk chunkAddresses.flatten
      ⟨some maxPayloadSize, some spanLength, some spanValues.sum, none⟩

/-- `popCarrierChunk(chunks)` from `src/file.ts`: when the level holds more
than one chunk and its length is congruent to 1 modulo the fanout, the last
chunk is removed and returned as the carrier. -/
def popCarrierChunk (chunks : List Chunk) : List Chunk × Option Chunk :=
  if chunks.length ≤ 1 then (chunks, none)
  else
    let maxSegmentCount := (chunks.headD dummyChunk).maxPayloadLength / SEGMENT_SIZE
    if chunks.length % maxSegmentCount = 1 then (chunks.dropLast, chunks.getLast?)
    else (chunks, none)

/-- `nextBmtLevel(chunks, carrierChunk)` from `src/file.ts`: builds the
parent level by grouping the chunks into fanout-sized runs, then either
merges or propagates an incoming carrier, or pops a new carrier from the
freshly built level. -/
def nextBmtLevel (K : HashFn) (chunks : List Chunk) (carrierChunk : Option Chunk) :
    Option (List Chunk × Option Chunk) :=
  match chunks with
  | [] => none
  | c0 :: _ =>
    let maxPayloadLength := c0.maxPayloadLength
    let spanLength := c0.spanLength
    let maxSegmentCount := maxPayloadLength / SEGMENT_SIZE
    (mapMOption (fun g => createIntermediateChunk K g spanLength maxPayloadLength)
        (groupsOf maxSegmentCount chunks)).bind
      fun nextLevelChunks =>
        match carrierChunk with
        | some c =>
          if nextLevelChunks.length % maxSegmentCount ≠ 0 then
            some (nextLevelChunks ++ [c], none)
          else some (nextLevelChunks, some c)
        | none => some (popCarrierChunk nextLevelChunks)

/-- The `while (levelChunks.length !== 1 || carrierChunk)` loop of
`bmtRootChunk` in `src/file.ts`, indexed by fuel. -/
def bmtRootChunkLoop (K : HashFn) (fuel : Nat) (levelChunks : List Chunk)
    (carrierChunk : Option Chunk) : Option Chunk :=
  if levelChunks.length = 1 ∧ carrierChunk.isNone then levelChunks.head?
  else
    match fuel with
    | 0 => none
    | f + 1 =>
      (nextBmtLevel K levelChunks carrierChunk).bind fun nc =>
        bmtRootChunkLoop K f nc.1 nc.2

/-- `bmtRootChunk(chunks)` from `src/file.ts`: fails on an empty level,
pops the initial carrier and iterates `nextBmtLevel` until a single chunk
with no pending carrier remains. -/
def bmtRootChunk (K : HashFn) (fuel : Nat) (chunks : List Chunk) : Option Chunk :=
  if chunks.isEmpty then none
  else
    let pc := popCarrierChunk chunks
    bmtRootChunkLoop K fuel pc.1 pc.2

/-- The `while (levelChunks[levelChunks.length - 1].length !== 1)` loop of
`bmt` in `src/file.ts`, indexed by fuel; records every level. -/
def fileBmtLoop (K : HashFn) (fuel : Nat) (cur : List Chunk)
    (carrier : Option Chunk) : Option (List (List Chunk)) :=
  if cur.length = 1 then some [cur]
  else
    match fuel with
    | 0 => none
    | f + 1 =>
      (nextBmtLevel K cur carrier).bind fun nc =>
        (fileBmtLoop K f nc.1 nc.2).map (cur :: ·)

/-- `bmt(leafChunks)` from `src/file.ts`: the level stack, leaves first.
`popCarrierChunk` mutates the leaf array that was already pushed, so level
zero is the popped leaf level. -/
def fileBmt (K : HashFn) (fuel : Nat) (leaf : List Chunk) : Option (List (List Chunk)) :=
  if leaf.isEmpty then none
  else
    let pc := popCarrierChunk leaf
    fileBmtLoop K fuel pc.1 pc.2

/-- The `while (segmentIndex % SEGMENT_SIZE === 0)` climbing loop of
`getBmtIndexOfSegment` in `src/file.ts`, indexed by fuel.  Note the loop
guard tests the index modulo `SEGMENT_SIZE` (32). -/
def getBmtIndexLoop (fuel : Nat) (level : Nat) (si : Nat) (shift : Nat) :
    Option (Nat × Nat) :=
  if si % SEGMENT_SIZE ≠ 0 then some (level, si)
  else
    match fuel with
    | 0 => none
    | f + 1 => getBmtIndexLoop f (level + 1) (si / 2 ^ shift) shift

/-- `getBmtIndexOfSegment(segmentIndex, spanValue, maxChunkPayloadByteLength)`
from `src/file.ts` (the library calls it with the default 4096).  The
result is the `(level, chunkIndex)` pair.  The `>>>` shifts are divisions
by `2 ^ log2(fanout)`. -/
def getBmtIndexOfSegment (fuel : Nat) (segmentIndex : Nat) (spanValue : Nat)
    (maxChunkPayloadByteLength : Nat) : Option (Nat × Nat) :=
  let maxSegmentCount := maxChunkPayloadByteLength / SEGMENT_SIZE
  let maxChunkIndex := spanValue / maxChunkPayloadByteLength
  let chunkBmtLevels := Nat.log2 maxSegmentCount
  if segmentIndex / maxSegmentCount = maxChunkIndex ∧
      maxChunkIndex % maxSegmentCount = 0 then
    getBmtIndexLoop fuel 0 (segmentIndex / 2 ^ chunkBmtLevels) chunkBmtLevels
  else some (0, segmentIndex / 2 ^ chunkBmtLevels)

/-- A `{span, sisterSegments}` record emitted by the file-level inclusion
proof (`ChunkInclusionProof` in `src/file.ts`). -/
structure ChunkInclusionProof where
  span : List Nat
  sisterSegments : List (List Nat)

/-- The `for (const proofSegment of proveChunk.sisterSegments)` fold of
`fileAddressFromInclusionProof`: merge each sister from the side selected
by the parity of the running segment index, halving the index. -/
def proofFoldSisters (K : HashFn) (sisters : List (List Nat)) (h : List Nat)
    (si : Nat) : List Nat × Nat :=
  match sisters with
  | [] => (h, si)
  | s :: rest =>
    let h1 := if si % 2 = 0 then (K (h ++ s)).val else (K (s ++ h)).val
    proofFoldSisters K rest h1 (si / 2)

/-- The outer `for (const proveChunk of proveChunks)` loop of
`fileAddressFromInclusionProof` in `src/file.ts`: each round first resolves
the parent chunk index through `getBmtIndexOfSegment`, folds the sister
segments, closes the chunk with its span, and continues with the parent
index. -/
def fileAddressLoop (K : HashFn) (fuel : Nat) (fileSize : Nat)
    (records : List ChunkInclusionProof) (h : List Nat) (si : Nat) :
    Option (List Nat) :=
  match records with
  | [] => some h
  | pc :: rest =>
    (getBmtIndexOfSegment fuel si fileSize DEFAULT_MAX_PAYLOAD_SIZE).bind fun li =>
      let parentChunkIndex := li.2
      let folded := proofFoldSisters K pc.sisterSegments h si
      fileAddressLoop K fuel fileSize rest ((K (pc.span ++ folded.1)).val)
        parentChunkIndex

/-- `fileAddressFromInclusionProof(proveChunks, proveSegment,
proveSegmentIndex)` from `src/file.ts`.  The file size is decoded from the
span of the last record. -/
def fileAddressFromInclusionProof (K : HashFn) (fuel : Nat)
    (proveChunks : List ChunkInclusionProof) (proveSegment : List Nat)
    (proveSegmentIndex : Nat) : Option (List Nat) :=
  (proveChunks.getLast?).bind fun last =>
  (getSpanValue last.span).bind fun fileSize =>
  fileAddressLoop K fuel fileSize proveChunks proveSegment proveSegmentIndex

/-- The `do { ... } while (segmentIndex % maxSegmentCount === 0)` carrier
chase inside `fileInclusionProofBottomUp`: step the level, shift the index,
repeat while it is congruent to 0 modulo the fanout. -/
def fipCarrierSkip (K : HashFn) (fuel : Nat) (cur : List Chunk)
    (carrier : Option Chunk) (si : Nat) (shift : Nat) (msc : Nat) :
    Option (List Chunk × Option Chunk × Nat) :=
  match fuel with
  | 0 => none
  | f + 1 =>
    (nextBmtLevel K cur carrier).bind fun nc =>
      let si1 := si / 2 ^ shift
      if si1 % msc = 0 then fipCarrierSkip K f nc.1 nc.2 si1 shift msc
      else some (nc.1, nc.2, si1)

/-- The main `while (levelChunks.length !== 1 || carrierChunk)` loop of
`fileInclusionProofBottomUp` in `src/file.ts`, indexed by fuel. -/
def fipLoop (K : HashFn) (fuel : Nat) (cur : List Chunk)
    (carrier : Option Chunk) (si : Nat) (msc : Nat) (shift : Nat) :
    Option (List ChunkInclusionProof) :=
  if cur.length = 1 ∧ carrier.isNone then
    (cur.head?).bind fun c0 =>
    (Chunk.inclusionProof K c0 si).bind fun sis =>
    (c0.span).bind fun sp =>
    some [⟨sp, sis⟩]
  else
    match fuel with
    | 0 => none
    | f + 1 =>
      let chunkSegmentIndex := si % msc
      let cip := si / msc
      (if cip = cur.length then
          match carrier with
          | none => none
          | some _ =>
            (fipCarrierSkip K (f + 1) cur carrier (si / 2 ^ shift) shift msc).map
              (fun t => (t.1, t.2.1, t.1.length - 1))
        else some (cur, carrier, cip)).bind fun st =>
      (st.1.get? st.2.2).bind fun chunk =>
      (Chunk.inclusionProof K chunk chunkSegmentIndex).bind fun sis =>
      (chunk.span).bind fun sp =>
      (nextBmtLevel K st.1 st.2.1).bind fun nc =>
      (fipLoop K f nc.1 nc.2 st.2.2 msc shift).map (fun rest => ⟨sp, sis⟩ :: rest)

/-- `fileInclusionProofBottomUp(chunkedFile, segmentIndex)` from
`src/file.ts` on the chunked file of `payload` (default options): guards
the index against the decoded file span, reads the fanout parameters from
the first leaf chunk, pops the initial carrier and runs the level loop. -/
def fileInclusionProofBottomUp (K : HashFn) (fuel : Nat) (payload : List Nat)
    (segmentIndex : Nat) : Option (List ChunkInclusionProof) :=
  (fileSpan payload).bind fun sp =>
  (getSpanValue sp).bind fun spanVal =>
  if segmentIndex * SEGMENT_SIZE ≥ spanVal then none
  else
    (leafChunks payload).bind fun lc =>
    (lc.head?).bind fun c0 =>
    let maxSegmentCount := c0.maxPayloadLength / SEGMENT_SIZE
    let chunkBmtLevels := Nat.log2 maxSegmentCount
    let pc := popCarrierChunk lc
    fipLoop K fuel pc.1 pc.2 segmentIndex maxSegmentCount chunkBmtLevels

/-- `makeChunkedFile(payload).address()` from `src/file.ts`: the address of
the root chunk built from the leaf chunks. -/
def makeChunkedFileAddress (K : HashFn) (fuel : Nat) (payload : List Nat) :
    Option (List Nat) :=
  (leafChunks payload).bind fun lc =>
  (bmtRootChunk K fuel lc).bind fun root =>
  Chunk.address K root

theorem log2_128 : Nat.log2 128 = 7 := by
  rw [Nat.log2, Nat.log2, Nat.log2, Nat.log2, Nat.log2, Nat.log2, Nat.log2, Nat.log2]
  norm_num

/-- Once the climbing loop holds index 0, the guard `0 % 32 === 0` is true
forever and the loop never exits. -/
theorem getBmtIndexLoop_zero (fuel : Nat) :
    ∀ level shift, getBmtIndexLoop fuel level 0 shift = none := by
  induction fuel with
  | zero =>
    intro level shift
    rw [getBmtIndexLoop, if_neg (by simp [SEGMENT_SIZE])]
  | succ f ih =>
    intro level shift
    rw [getBmtIndexLoop, if_neg (by simp [SEGMENT_SIZE])]
    simpa using ih (level + 1) shift

theorem getBmtIndexOfSegment_small_none (fuel si spanValue : Nat)
    (hsi : si < 128) (hspan : spanValue < 4096) :
    getBmtIndexOfSegment fuel si spanValue 4096 = none := by
  rw [getBmtIndexOfSegment]
  simp only [SEGMENT_SIZE]
  norm_num
  have hcond : si / 128 = spanValue / 4096 ∧ spanValue / 4096 % 128 = 0 := by
    constructor
    · rw [Nat.div_eq_of_lt hsi, Nat.div_eq_of_lt hspan]
    · rw [Nat.div_eq_of_lt hspan]
  rw [if_pos hcond, log2_128]
  have hz : si / 2 ^ 7 = 0 := Nat.div_eq_of_lt (by omega)
  rw [hz]
  exact getBmtIndexLoop_zero fuel 0 7

/-- C4: refuted as stated.  For every total span below 4096 (a single-chunk
file) and every segment index below the fanout, `getBmtIndexOfSegment`
enters the carrier branch (both sides of its guard are 0), shifts the index
to 0 and then loops forever, because `0 % SEGMENT_SIZE === 0` never turns
false; the fuel-indexed embedding returns `none` for every fuel, so the
function neither terminates nor follows the spec's mod-fanout climbing
rule. -/
theorem c4_getBmtIndexOfSegment_diverges (fuel si spanValue : Nat)
    (hsi : si < 128) (hspan : spanValue < 4096) :
    getBmtIndexOfSegment fuel si spanValue 4096 = none :=
  getBmtIndexOfSegment_small_none fuel si spanValue hsi hspan

/-- Witness for C4's divergence theorem at the concrete failing input
`segment_index = 0`, `total_span = 100` (which satisfies the claim's
precondition `0 * 32 < 100`). -/
theorem c4_getBmtIndexOfSegment_diverges_witness :
    (0 * 32 < 100 ∧ (0 : Nat) < 128 ∧ (100 : Nat) < 4096) ∧
      getBmtIndexOfSegment 5 0 100 4096 = none :=
  ⟨by norm_num, c4_getBmtIndexOfSegment_diverges 5 0 100 (by norm_num) (by norm_num)⟩

/-- C7: encode-then-decode is the identity on the whole safe-integer range
with the default 8-byte span length. -/
theorem c7_span_roundtrip (v : Nat) (hv : v ≤ 2 ^ 53 - 1) :
    (makeSpan (v : Int) none).bind getSpanValue = some v := by
  have hv' : v ≤ MAX_SPAN_LENGTH := by simpa [MAX_SPAN_LENGTH] using hv
  rw [makeSpan_none_eq v hv', Option.some_bind]
  exact getSpanValue_spanEncoding v 8 hv' (by omega)

/-- Witness for C7 at `v = 300`. -/
theorem c7_span_roundtrip_witness :
    (300 : Nat) ≤ 2 ^ 53 - 1 ∧
      (makeSpan ((300 : Nat) : Int) none).bind getSpanValue = some 300 :=
  ⟨by norm_num, c7_span_roundtrip 300 (by norm_num)⟩

/-- C6 counterexample: with span length 4 — permitted by the claim — and
the in-range value 0, `makeSpan` fails (the `DataView.setUint32(4, hi32)`
write needs an 8-byte buffer), refuting that it fails exactly on
out-of-range values. -/
theorem c6_counterexample_makeSpan_length4 :
    makeSpan (0 : Int) (some 4) = none ∧
      (0 : Int) ≤ 0 ∧ (0 : Int) ≤ 2 ^ 53 - 1 ∧ 4 ≤ (4 : Nat) := by
  refine ⟨?_, by norm_num, by norm_num, le_refl 4⟩
  rfl

/-- C6 as amended: `makeSpan(value, length)` succeeds exactly when the
value is in `[0, 2^53 − 1]` and the span length is at least 8 (or 0, which
falls back to the default 8); lengths 4 to 7 always fail because the
high-word write runs past the buffer.  On success the result is the
little-endian encoding over the resolved length. -/
theorem c6_makeSpan_characterization (value : Int) (len : Nat) :
    makeSpan value (some len) =
      if 0 ≤ value ∧ value ≤ ((2 ^ 53 - 1 : Nat) : Int) ∧ (len = 0 ∨ 8 ≤ len)
      then some (spanEncoding value.toNat (if len = 0 then 8 else len))
      else none := by
  rcases lt_or_ge value 0 with h1 | h1
  · rw [if_neg (by rintro ⟨h0, -, -⟩; omega)]
    simp [makeSpan, h1]
  · rcases lt_or_ge ((MAX_SPAN_LENGTH : Nat) : Int) value with h2 | h2
    · rw [if_neg (by rintro ⟨-, hm, -⟩; simp only [MAX_SPAN_LENGTH] at h2; omega)]
      have hn1 : ¬ value < 0 := by omega
      simp [makeSpan, hn1, h2]
    · have hcast : value = ((value.toNat : Nat) : Int) := (Int.toNat_of_nonneg h1).symm
      have hmax : value.toNat ≤ MAX_SPAN_LENGTH := by
        simp only [MAX_SPAN_LENGTH] at h2 ⊢
        omega
      have hmax' : value ≤ ((2 ^ 53 - 1 : Nat) : Int) := by
        simp only [MAX_SPAN_LENGTH] at h2
        omega
      rcases len with _ | m
      · rw [if_pos ⟨h1, hmax', Or.inl rfl⟩]
        conv_lhs => rw [hcast]
        exact makeSpan_eq_spanEncoding value.toNat 0 hmax (Or.inl rfl)
      · rcases Nat.lt_or_ge m 7 with hm | hm
        · rw [if_neg (by rintro ⟨-, -, h | h⟩ <;> omega)]
          have hn1 : ¬ value < 0 := by omega
          have hn2 : ¬ value > ((MAX_SPAN_LENGTH : Nat) : Int) := by omega
          simp only [makeSpan, MAX_SPAN_LENGTH] at hn2 ⊢
          rw [if_neg hn1, if_neg (by exact_mod_cast hn2), if_pos (by omega)]
        · rw [if_pos ⟨h1, hmax', Or.inr (by omega)⟩]
          conv_lhs => rw [hcast]
          exact makeSpan_eq_spanEncoding value.toNat (m + 1) hmax (Or.inr (by omega))

/-- A concrete hashing capability used to instantiate counterexamples and
witnesses: maps everything to 32 zero bytes. -/
def kZero : HashFn := fun _ => ⟨List.replicate 32 0, by simp⟩

theorem makeChunk_default (payload : List Nat) :
    makeChunk payload noChunkOptions =
      if payload.length > 4096 then none
      else some ⟨payload, payload.length, 4096, 8, none⟩ := by
  simp [makeChunk, noChunkOptions, resolveOr, DEFAULT_MAX_PAYLOAD_SIZE, DEFAULT_SPAN_SIZE]

/-- The chunk built by `makeChunk` with default options answers inclusion
proof requests for every index into the padded 4096-byte data, because the
guard in `inclusionProofBottomUp` compares against `data().length`. -/
theorem makeChunk_inclusionProof_isSome_iff (K : HashFn) (payload : List Nat) (si : Nat) :
    ((makeChunk payload noChunkOptions).bind fun c => Chunk.inclusionProof K c si).isSome =
      true ↔ (payload.length ≤ 4096 ∧ si * 32 < 4096) := by
  rw [makeChunk_default]
  rcases Nat.lt_or_ge 4096 payload.length with hgt | hle
  · rw [if_pos hgt]
    simp
    omega
  · rw [if_neg (by omega), Option.some_bind, Chunk.inclusionProof]
    have hdata : (Chunk.data ⟨payload, payload.length, 4096, 8, none⟩).length = 4096 := by
      simpa [Chunk.data] using chunkPad_length payload 4096 hle
    rw [Option.isSome_iff_exists]
    constructor
    · rintro ⟨p, hp⟩
      have := (inclusionProofBottomUp_isSome K
        (Chunk.data ⟨payload, payload.length, 4096, 8, none⟩) si
        (some (resolveHashFn K none))).mp (by rw [hp]; rfl)
      rw [hdata] at this
      simp only [SEGMENT_SIZE] at this
      exact ⟨hle, this.1⟩
    · rintro ⟨-, hsi⟩
      have := (inclusionProofBottomUp_isSome K
        (Chunk.data ⟨payload, payload.length, 4096, 8, none⟩) si
        (some (resolveHashFn K none))).mpr
        (by rw [hdata]; simp only [SEGMENT_SIZE]; omega)
      rcases Option.isSome_iff_exists.mp this with ⟨p, hp⟩
      exact ⟨p, hp⟩

/-- C5 counterexample: for the 3-byte payload `[1, 2, 3]` and segment index
1 the claim demands failure (since `1 * 32 ≥ 3`), but the code succeeds:
the bound is checked against the padded `data()` bytes, not the payload. -/
theorem c5_counterexample_padding_index_succeeds :
    1 * 32 ≥ ([1, 2, 3] : List Nat).length ∧
      ((makeChunk [1, 2, 3] noChunkOptions).bind
        fun c => Chunk.inclusionProof kZero c 1).isSome = true := by
  constructor
  · norm_num
  · exact (makeChunk_inclusionProof_isSome_iff kZero [1, 2, 3] 1).mpr (by norm_num)

/-- C5 as amended: for a chunk built by `makeChunk` with default options
from a payload of length `L ≤ 4096`, `inclusionProof(i)` fails exactly when
`i * 32 ≥ 4096` (the length of the zero-padded `data()`), so indices into
the zero-padding region succeed. -/
theorem c5_inclusion_proof_bound_is_padded_length (K : HashFn)
    (payload : List Nat) (si : Nat) :
    ((makeChunk payload noChunkOptions).bind
        fun c => Chunk.inclusionProof K c si).isSome = true ↔
      (payload.length ≤ 4096 ∧ si * 32 < 4096) :=
  makeChunk_inclusionProof_isSome_iff K payload si

/-- C2: refuted by the code.  On the empty payload the slicing loop of
`leafChunks` never runs, so the chunked file has no leaf chunk at all
(instead of one empty chunk), and `address()` throws the empty-level error
inside `bmtRootChunk`.  Only the span part of the claim holds: `span()` is
8 zero bytes. -/
theorem c2_empty_payload_file_crashes (K : HashFn) (fuel : Nat) :
    leafChunks [] = some [] ∧
      makeChunkedFileAddress K fuel [] = none ∧
      fileSpan [] = some (List.replicate 8 0) := by
  have h0 : leafChunks [] = some [] := by
    rw [leafChunks, groupsOf_nil]
    rfl
  refine ⟨h0, ?_, rfl⟩
  rw [makeChunkedFileAddress, h0, Option.some_bind, bmtRootChunk,
    if_pos (by rfl)]
  rfl

theorem leafChunks_small (payload : List Nat) (hne : payload ≠ [])
    (hlen : payload.length ≤ 4096) :
    leafChunks payload = some [⟨payload, payload.length, 4096, 8, none⟩] := by
  rw [leafChunks]
  simp only [DEFAULT_MAX_PAYLOAD_SIZE]
  rw [groupsOf_cons 4096 payload (by norm_num) hne,
    List.take_of_length_le (by omega), List.drop_eq_nil_of_le (by omega),
    groupsOf_nil]
  simp only [mapMOption, makeChunk_default]
  rw [if_neg (by omega)]
  rfl

theorem fileAddressLoop_cons_none (K : HashFn) (fuel : Nat) (fileSize : Nat)
    (r : ChunkInclusionProof) (rest : List ChunkInclusionProof) (h : List Nat)
    (si : Nat) (hsi : si < 128) (hfs : fileSize < 4096) :
    fileAddressLoop K fuel fileSize (r :: rest) h si = none := by
  rw [fileAddressLoop]
  simp only [DEFAULT_MAX_PAYLOAD_SIZE]
  rw [getBmtIndexOfSegment_small_none fuel si fileSize hsi hfs, Option.none_bind]

theorem fileAddressFromInclusionProof_singleton_none (K : HashFn) (fuel : Nat)
    (r : ChunkInclusionProof) (seg : List Nat) (si fileSize : Nat)
    (hspan : getSpanValue r.span = some fileSize)
    (hsi : si < 128) (hfs : fileSize < 4096) :
    fileAddressFromInclusionProof K fuel [r] seg si = none := by
  rw [fileAddressFromInclusionProof,
    show ([r] : List ChunkInclusionProof).getLast? = some r from rfl,
    Option.some_bind, hspan, Option.some_bind]
  exact fileAddressLoop_cons_none K fuel fileSize r [] seg si hsi hfs

/-- C1: refuted by the code.  For the single-chunk payload `[1, 2, 3]` and
segment index 0, `fileInclusionProofBottomUp` succeeds (one record), but
`fileAddressFromInclusionProof` never returns: its first loop round calls
`getBmtIndexOfSegment(0, 3)`, which diverges for single-chunk spans, so the
fuel-indexed embedding yields `none` for every fuel and every hashing
capability — the round-trip cannot produce the file address for payloads of
at most 4096 bytes. -/
theorem c1_file_roundtrip_diverges_on_single_chunk (K : HashFn) (fuel1 fuel2 : Nat) :
    (fileInclusionProofBottomUp K fuel1 [1, 2, 3] 0).isSome = true ∧
      ((fileInclusionProofBottomUp K fuel1 [1, 2, 3] 0).bind fun ps =>
          fileAddressFromInclusionProof K fuel2 ps
            ([1, 2, 3] ++ List.replicate 29 0) 0) = none := by
  have hmax3 : (3 : Nat) ≤ MAX_SPAN_LENGTH := by
    simp only [MAX_SPAN_LENGTH]
    norm_num
  set c3 : Chunk := ⟨[1, 2, 3], 3, 4096, 8, none⟩ with hc3
  have hlc : leafChunks [1, 2, 3] = some [c3] := by
    simpa using leafChunks_small [1, 2, 3] (by simp) (by norm_num)
  have hspan3 : fileSpan [1, 2, 3] = some (spanEncoding 3 8) := by
    rw [fileSpan]
    have := makeSpan_eq_spanEncoding 3 DEFAULT_SPAN_SIZE hmax3 (by right; rfl)
    simpa [DEFAULT_SPAN_SIZE] using this
  have hgsv : getSpanValue (spanEncoding 3 8) = some 3 :=
    getSpanValue_spanEncoding 3 8 hmax3 (le_refl 8)
  have hc3span : Chunk.span c3 = some (spanEncoding 3 8) :=
    Chunk.span_some c3 (Or.inl rfl) hmax3
  have hdata : (Chunk.data c3).length = 4096 := chunkPad_length [1, 2, 3] 4096 (by norm_num)
  have hincl : ∃ sis, Chunk.inclusionProof K c3 0 = some sis := by
    apply Option.isSome_iff_exists.mp
    rw [Chunk.inclusionProof]
    exact (inclusionProofBottomUp_isSome K (Chunk.data c3) 0
      (some (resolveHashFn K none))).mpr (by rw [hdata]; simp [SEGMENT_SIZE])
  obtain ⟨sis, hsis⟩ := hincl
  have hpop : popCarrierChunk [c3] = ([c3], none) := by
    rw [popCarrierChunk, if_pos (by simp)]
  have hfip : fileInclusionProofBottomUp K fuel1 [1, 2, 3] 0 =
      some [⟨spanEncoding 3 8, sis⟩] := by
    rw [fileInclusionProofBottomUp, hspan3, Option.some_bind, hgsv, Option.some_bind,
      if_neg (by simp [SEGMENT_SIZE]), hlc, Option.some_bind]
    simp only [List.head?_cons, Option.some_bind]
    rw [hpop]
    rw [fipLoop.eq_def, if_pos (by simp)]
    simp only [List.head?_cons, Option.some_bind]
    rw [hsis, Option.some_bind, hc3span, Option.some_bind]
  refine ⟨by rw [hfip]; rfl, ?_⟩
  rw [hfip, Option.some_bind]
  exact fileAddressFromInclusionProof_singleton_none K fuel2 _ _ 0 3 hgsv
    (by norm_num) (by norm_num)

theorem flatten_replicate_replicate (n m : Nat) (a : α) :
    (List.replicate n (List.replicate m a)).flatten = List.replicate (n * m) a := by
  induction n with
  | zero => simp
  | succ k ih =>
    rw [List.replicate_succ, List.flatten_cons, ih]
    rw [show (k + 1) * m = m + k * m by ring, List.replicate_add]

theorem groupsOf_replicate (n : Nat) (hn : n ≠ 0) (k : Nat) (a : α) :
    groupsOf n (List.replicate (n * k) a) = List.replicate k (List.replicate n a) := by
  induction k with
  | zero => simp [groupsOf_nil]
  | succ j ih =>
    have hne : List.replicate (n * (j + 1)) a ≠ [] := by
      simp only [ne_eq, List.replicate_eq_nil_iff]
      intro h
      rcases Nat.mul_eq_zero.mp h with h1 | h1 <;> omega
    rw [groupsOf_cons n _ hn hne, List.take_replicate, List.drop_replicate]
    have h1 : min n (n * (j + 1)) = n := by
      have hle : n * 1 ≤ n * (j + 1) := Nat.mul_le_mul (le_refl n) (by omega)
      rw [Nat.mul_one] at hle
      omega
    have h2 : n * (j + 1) - n = n * j := by ring_nf; omega
    rw [h1, h2, ih, List.replicate_succ]

/-- With the all-zero hashing capability every pairwise round yields a
zero-filled buffer, so the BMT root of any well-sized input is 32 zero
bytes. -/
theorem hashSegmentPairs_kZero (input : List Nat) :
    hashSegmentPairs kZero input =
      List.replicate ((groupsOf 64 input).length * 32) 0 := by
  rw [hashSegmentPairs]
  have : (groupsOf 64 input).map (fun b => (kZero b).val) =
      List.replicate (groupsOf 64 input).length (List.replicate 32 0) := by
    rw [show (fun (b : List Nat) => (kZero b).val) = fun _ => List.replicate 32 0 from rfl]
    exact List.map_const' _ _
  rw [this, flatten_replicate_replicate]

theorem bmtRootHashLoop_uniform (H : HashFn) (c : Nat)
    (hH : (H (List.replicate 64 c)).val = List.replicate 32 c) :
    ∀ k fuel, k ≤ fuel →
      bmtRootHashLoop H fuel (List.replicate (32 * 2 ^ k) c) =
        some (List.replicate 32 c) := by
  intro k
  induction k with
  | zero =>
    intro fuel _
    rw [bmtRootHashLoop.eq_def, if_pos (by simp)]
    norm_num
  | succ j ih =>
    intro fuel hfuel
    have hne : (List.replicate (32 * 2 ^ (j + 1)) c).length ≠ 32 := by
      simp only [List.length_replicate]
      have h2 : (2 : Nat) ≤ 2 ^ (j + 1) := by
        calc (2 : Nat) = 2 ^ 1 := rfl
        _ ≤ 2 ^ (j + 1) := Nat.pow_le_pow_right (by omega) (by omega)
      omega
    rcases fuel with _ | f
    · omega
    · rw [bmtRootHashLoop.eq_def, if_neg hne]
      have hsplit : List.replicate (32 * 2 ^ (j + 1)) c =
          List.replicate (64 * 2 ^ j) c := by
        have : 32 * 2 ^ (j + 1) = 64 * 2 ^ j := by ring
        rw [this]
      rw [hsplit, hashSegmentPairs, groupsOf_replicate 64 (by omega) (2 ^ j) c]
      have hmap : (List.replicate (2 ^ j) (List.replicate 64 c)).map
          (fun b => (H b).val) = List.replicate (2 ^ j) (List.replicate 32 c) := by
        rw [List.map_replicate, hH]
      rw [hmap, flatten_replicate_replicate]
      have : 2 ^ j * 32 = 32 * 2 ^ j := by ring
      rw [this]
      exact ih f (by omega)

/-- With the all-zero capability the root of any well-sized buffer is
all-zero, whatever the buffer contents. -/
theorem bmtRootHashLoop_kZero (k : Nat) (hk : 1 ≤ k) :
    ∀ fuel input, k ≤ fuel → (input : List Nat).length = 32 * 2 ^ k →
      bmtRootHashLoop kZero fuel input = some (List.replicate 32 0) := by
  rcases k with _ | j
  · omega
  · intro fuel input hfuel hlen
    have hne : input.length ≠ 32 := by
      rw [hlen]
      have h2 : (2 : Nat) ≤ 2 ^ (j + 1) := by
        calc (2 : Nat) = 2 ^ 1 := rfl
        _ ≤ 2 ^ (j + 1) := Nat.pow_le_pow_right (by omega) (by omega)
      omega
    rcases fuel with _ | f
    · omega
    · rw [bmtRootHashLoop.eq_def, if_neg hne, hashSegmentPairs_kZero,
        length_groupsOf 64 (by omega) input, hlen]
      have hcount : (32 * 2 ^ (j + 1) + (64 - 1)) / 64 * 32 = 32 * 2 ^ j := by
        have h1 : 32 * 2 ^ (j + 1) + (64 - 1) = 63 + 2 ^ j * 64 := by ring
        rw [h1, Nat.add_mul_div_right _ _ (by omega : (0:Nat) < 64)]
        rw [Nat.div_eq_of_lt (by omega)]
        ring
      rw [hcount]
      exact bmtRootHashLoop_uniform kZero 0 rfl j f (by omega)

/-- A concrete injectable hashing capability for counterexamples: returns
the first 32 bytes of its input (padded with zeros when shorter). -/
def hTake : HashFn := fun l =>
  ⟨(l ++ List.replicate 32 0).take 32, by
    simp only [List.length_take, List.length_append, List.length_replicate]
    omega⟩

theorem hTake_replicate_64 (c : Nat) :
    (hTake (List.replicate 64 c)).val = List.replicate 32 c := by
  show ((List.replicate 64 c ++ List.replicate 32 0).take 32) = List.replicate 32 c
  rw [List.take_append_of_le_length (by simp), List.take_replicate]
  norm_num

/-- The address computation described by the claim (and §6/§9 of the spec):
the injected `hashFn` is applied uniformly, to the pairwise BMT rounds as
well as to the final span-plus-root hash.  This definition follows the
claim's words and differs from `chunkAddress` only in forwarding the
options to `bmtRootHash`. -/
def chunkAddressSpecUniform (K : HashFn) (payload : List Nat)
    (spanLength : Option Nat) (chunkSpan : Option (List Nat))
    (options : Option HashFn) : Option (List Nat) :=
  let H := resolveHashFn K options
  (match chunkSpan with
   | some s => some s
   | none => makeSpan (payload.length : Int) spanLength).bind fun span =>
  (bmtRootHash K payload DEFAULT_MAX_PAYLOAD_SIZE options).bind fun rootHash =>
  some (H (span ++ rootHash)).val

theorem chunkPad_exact (l : List Nat) (n : Nat) (h : l.length = n) :
    chunkPad l n = l := by
  rw [chunkPad, h, Nat.sub_self, List.replicate_zero, List.append_nil]

theorem bmtRootHash_ones_kZero :
    bmtRootHash kZero (List.replicate 4096 1) DEFAULT_MAX_PAYLOAD_SIZE none =
      some (List.replicate 32 0) := by
  rw [bmtRootHash,
    if_neg (by rw [List.length_replicate]; norm_num [DEFAULT_MAX_PAYLOAD_SIZE]),
    chunkPad_exact _ _ (by rw [List.length_replicate]; rfl)]
  exact bmtRootHashLoop_kZero 7 (by omega) 8 _ (by omega)
    (by rw [List.length_replicate]; norm_num)

theorem bmtRootHash_ones_hTake :
    bmtRootHash kZero (List.replicate 4096 1) DEFAULT_MAX_PAYLOAD_SIZE (some hTake) =
      some (List.replicate 32 1) := by
  rw [bmtRootHash,
    if_neg (by rw [List.length_replicate]; norm_num [DEFAULT_MAX_PAYLOAD_SIZE]),
    chunkPad_exact _ _ (by rw [List.length_replicate]; rfl),
    show (4096 : Nat) = 32 * 2 ^ 7 by norm_num]
  exact bmtRootHashLoop_uniform (resolveHashFn kZero (some hTake)) 1
    (hTake_replicate_64 1) 7 8 (by omega)

/-- C3: refuted by the code.  For the chunk built by `makeChunk` over the
all-ones 4096-byte payload with the injected capability `hTake`, the
code's `address()` hashes the span together with a BMT root computed by the
default capability (here `kZero`, standing in for Keccak-256), because
`chunkAddress` does not forward its options to `bmtRootHash`; the uniform
computation the claim describes (`chunkAddressSpecUniform`) gives a
different 32-byte result. -/
theorem c3_custom_hash_not_applied_to_root :
    ∃ c a b,
      makeChunk (List.replicate 4096 1) ⟨none, none, none, some hTake⟩ = some c ∧
      Chunk.address kZero c = some a ∧
      chunkAddressSpecUniform kZero (List.replicate 4096 1) (some 8)
        (some (spanEncoding 4096 8)) (some hTake) = some b ∧
      a ≠ b := by
  have hmax : (4096 : Nat) ≤ MAX_SPAN_LENGTH := by
    simp only [MAX_SPAN_LENGTH]
    norm_num
  have hmk : makeChunk (List.replicate 4096 1) ⟨none, none, none, some hTake⟩ =
      some ⟨List.replicate 4096 1, 4096, 4096, 8, some hTake⟩ := by
    rw [makeChunk]
    simp only [resolveOr, List.length_replicate, DEFAULT_MAX_PAYLOAD_SIZE,
      DEFAULT_SPAN_SIZE]
    rw [if_neg (by omega)]
  have hsp : Chunk.span (⟨List.replicate 4096 1, 4096, 4096, 8, some hTake⟩ : Chunk) =
      some (spanEncoding 4096 8) :=
    Chunk.span_some _ (Or.inl rfl) hmax
  have haddr : Chunk.address kZero ⟨List.replicate 4096 1, 4096, 4096, 8, some hTake⟩ =
      some (hTake (spanEncoding 4096 8 ++ List.replicate 32 0)).val := by
    rw [Chunk.address, hsp, Option.some_bind, chunkAddress]
    show ((some (spanEncoding 4096 8)).bind fun span =>
      (bmtRootHash kZero (List.replicate 4096 1) DEFAULT_MAX_PAYLOAD_SIZE none).bind
        fun rootHash =>
          some ((resolveHashFn kZero (some (resolveHashFn kZero (some hTake))))
            (span ++ rootHash)).val) = _
    rw [Option.some_bind, bmtRootHash_ones_kZero, Option.some_bind]
    rfl
  have hspec : chunkAddressSpecUniform kZero (List.replicate 4096 1) (some 8)
      (some (spanEncoding 4096 8)) (some hTake) =
      some (hTake (spanEncoding 4096 8 ++ List.replicate 32 1)).val := by
    rw [chunkAddressSpecUniform]
    show ((some (spanEncoding 4096 8)).bind fun span =>
      (bmtRootHash kZero (List.replicate 4096 1) DEFAULT_MAX_PAYLOAD_SIZE
          (some hTake)).bind
        fun rootHash =>
          some ((resolveHashFn kZero (some hTake)) (span ++ rootHash)).val) = _
    rw [Option.some_bind, bmtRootHash_ones_hTake, Option.some_bind]
    rfl
  refine ⟨_, _, _, hmk, haddr, hspec, ?_⟩
  decide

/-- The total of the recorded span values of a chunk list. -/
def sumSpans (l : List Chunk) : Nat :=
  (l.map Chunk.spanValue).sum

/-- The well-formedness facts holding for every chunk the file builder
handles with default options: default fanout parameters, a payload that
fits a chunk, and a positive span value. -/
def ValidChunk (c : Chunk) : Prop :=
  c.maxPayloadLength = 4096 ∧ c.spanLength = 8 ∧
    c.payload.length ≤ 4096 ∧ 1 ≤ c.spanValue

theorem sumSpans_append (l₁ l₂ : List Chunk) :
    sumSpans (l₁ ++ l₂) = sumSpans l₁ + sumSpans l₂ := by
  simp [sumSpans]

theorem mem_spanValue_le_sumSpans {c : Chunk} {l : List Chunk} (h : c ∈ l) :
    c.spanValue ≤ sumSpans l := by
  induction l with
  | nil => simp at h
  | cons a t ih =>
    rcases List.mem_cons.mp h with rfl | h
    · simp [sumSpans]
    · have := ih h
      simp only [sumSpans, List.map_cons, List.sum_cons]
      simp only [sumSpans] at this
      omega

theorem one_le_sumSpans {l : List Chunk} (hne : l ≠ [])
    (hval : ∀ c ∈ l, 1 ≤ c.spanValue) : 1 ≤ sumSpans l := by
  rcases l with _ | ⟨a, t⟩
  · simp at hne
  · have := hval a (by simp)
    simp only [sumSpans, List.map_cons, List.sum_cons]
    omega

theorem resolveOr_pos (n d : Nat) (h : n ≠ 0) : resolveOr (some n) d = n := by
  cases n
  · omega
  · rfl

theorem chunkSpan_decode (c : Chunk) (h8 : c.spanLength = 8)
    (hv : c.spanValue ≤ MAX_SPAN_LENGTH) :
    (Chunk.span c).bind getSpanValue = some c.spanValue := by
  rw [Chunk.span_some c (Or.inl h8) hv, Option.some_bind]
  exact getSpanValue_spanEncoding _ 8 hv (le_refl 8)

theorem mapMOption_eq_map (f : α → Option β) (g : α → β) (l : List α)
    (h : ∀ a ∈ l, f a = some (g a)) : mapMOption f l = some (l.map g) := by
  induction l with
  | nil => rfl
  | cons a t ih =>
    rw [mapMOption, h a (by simp), Option.some_bind,
      ih (fun x hx => h x (by simp [hx])), Option.map_some']
    rfl

theorem flatten_length_const (bs : List (List Nat)) (n : Nat)
    (h : ∀ x ∈ bs, x.length = n) : bs.flatten.length = n * bs.length := by
  induction bs with
  | nil => simp
  | cons a t ih =>
    rw [List.flatten_cons, List.length_append, h a (by simp),
      ih (fun x hx => h x (by simp [hx]))]
    simp only [List.length_cons]
    ring

/-- `createIntermediateChunk` on a valid child group: succeeds, the parent
payload is the concatenation of the children's addresses, and the parent's
recorded span value is the sum of the children's span values. -/
theorem createIntermediateChunk_some (K : HashFn) (children : List Chunk)
    (hne : children ≠ []) (hval : ∀ c ∈ children, ValidChunk c)
    (hsum : sumSpans children ≤ MAX_SPAN_LENGTH)
    (hcount : children.length ≤ 128) :
    ∃ addrs, mapMOption (Chunk.address K) children = some addrs ∧
      (∀ x ∈ addrs, x.length = 32) ∧
      addrs.length = children.length ∧
      createIntermediateChunk K children 8 4096 =
        some ⟨addrs.flatten, sumSpans children, 4096, 8, none⟩ := by
  obtain ⟨c0, rest, hch⟩ : ∃ c0 rest, children = c0 :: rest := by
    rcases children with _ | ⟨c0, rest⟩
    · exact absurd rfl hne
    · exact ⟨c0, rest, rfl⟩
  subst hch
  have haddr : ∀ c ∈ c0 :: rest, (Chunk.address K c).isSome = true := by
    intro c hc
    obtain ⟨h4096, h8, hp, h1⟩ := hval c hc
    obtain ⟨a, ha, -⟩ := Chunk.address_some K c h8
      (le_trans (mem_spanValue_le_sumSpans hc) hsum) hp
    simp [ha]
  obtain ⟨addrs, haddrs, hlen⟩ := mapMOption_eq_some_of_forall _ _ haddr
  have hlen32 : ∀ x ∈ addrs, x.length = 32 := by
    intro x hx
    obtain ⟨i, hi, hxi⟩ := List.mem_iff_getElem.mp hx
    obtain ⟨-, hpt⟩ := mapMOption_some_getElem _ _ _ haddrs
    have hic : i < (c0 :: rest).length := by omega
    have hfi := hpt i hic hi
    obtain ⟨h4096, h8, hp, h1⟩ := hval ((c0 :: rest)[i]) (by simp)
    obtain ⟨a, ha, halen⟩ := Chunk.address_some K ((c0 :: rest)[i]) h8
      (le_trans (mem_spanValue_le_sumSpans (by simp)) hsum) hp
    rw [ha] at hfi
    cases hfi
    exact hxi ▸ halen
  refine ⟨addrs, haddrs, hlen32, hlen, ?_⟩
  have hflat : addrs.flatten.length = 32 * (c0 :: rest).length := by
    rw [flatten_length_const addrs 32 hlen32, hlen]
  have hsum1 : 1 ≤ sumSpans (c0 :: rest) :=
    one_le_sumSpans hne (fun c hc => (hval c hc).2.2.2)
  rw [createIntermediateChunk, haddrs, Option.some_bind,
    mapMOption_eq_map _ (fun c => c.spanValue) (c0 :: rest) (fun c hc =>
      chunkSpan_decode c (hval c hc).2.1
        (le_trans (mem_spanValue_le_sumSpans hc) hsum)),
    Option.some_bind]
  simp only [List.map_cons]
  have hsumeq : (c0.spanValue :: List.map (fun c => c.spanValue) rest).sum =
      sumSpans (c0 :: rest) := by
    simp [sumSpans]
  rcases hS : (c0.spanValue :: List.map (fun c => c.spanValue) rest).sum with _ | n
  · rw [hsumeq] at hS
    omega
  · rw [hS, makeChunk]
    simp only [resolveOr]
    have hguard : ¬ addrs.flatten.length > 4096 := by
      rw [hflat]
      simp only [List.length_cons] at hcount ⊢
      omega
    rw [if_neg (by simpa [DEFAULT_MAX_PAYLOAD_SIZE] using hguard)]
    rw [hsumeq] at hS
    rw [hS]

theorem le_sum_of_mem {a : Nat} {l : List Nat} (h : a ∈ l) : a ≤ l.sum := by
  induction l with
  | nil => simp at h
  | cons x t ih =>
    rcases List.mem_cons.mp h with rfl | h
    · simp
    · have := ih h
      simp only [List.sum_cons]
      omega

theorem sumSpans_flatten (gs : List (List Chunk)) :
    sumSpans gs.flatten = (gs.map sumSpans).sum := by
  induction gs with
  | nil => rfl
  | cons g t ih =>
    rw [List.flatten_cons, sumSpans_append, ih, List.map_cons, List.sum_cons]

theorem sumSpans_group_le (chunks : List Chunk) (g : List Chunk)
    (hg : g ∈ groupsOf 128 chunks) : sumSpans g ≤ sumSpans chunks := by
  have hj : (groupsOf 128 chunks).flatten = chunks := join_groupsOf 128 (by omega) chunks
  calc sumSpans g ≤ ((groupsOf 128 chunks).map sumSpans).sum :=
        le_sum_of_mem (List.mem_map_of_mem sumSpans hg)
    _ = sumSpans (groupsOf 128 chunks).flatten := (sumSpans_flatten _).symm
    _ = sumSpans chunks := by rw [hj]

/-- One level step on a valid level: the freshly built parent chunks exist,
are valid, preserve the span total, and the step's result follows the
carrier rules applied to them. -/
theorem nextBmtLevel_spec (K : HashFn) (chunks : List Chunk) (carrier : Option Chunk)
    (hne : chunks ≠ []) (hval : ∀ c ∈ chunks, ValidChunk c)
    (hsum : sumSpans chunks ≤ MAX_SPAN_LENGTH) :
    ∃ built,
      mapMOption (fun g => createIntermediateChunk K g 8 4096)
        (groupsOf 128 chunks) = some built ∧
      built ≠ [] ∧
      built.length = (chunks.length + 127) / 128 ∧
      (∀ p ∈ built, ValidChunk p) ∧
      sumSpans built = sumSpans chunks ∧
      nextBmtLevel K chunks carrier = some (
        match carrier with
        | some c =>
          if built.length % 128 ≠ 0 then (built ++ [c], none) else (built, some c)
        | none => popCarrierChunk built) := by
  have hgroup : ∀ g ∈ groupsOf 128 chunks,
      ∃ addrs, mapMOption (Chunk.address K) g = some addrs ∧
        (∀ x ∈ addrs, x.length = 32) ∧ addrs.length = g.length ∧
        createIntermediateChunk K g 8 4096 =
          some ⟨addrs.flatten, sumSpans g, 4096, 8, none⟩ := by
    intro g hg
    exact createIntermediateChunk_some K g
      (groupsOf_ne_nil_mem 128 chunks g hg)
      (fun c hc => hval c (mem_of_mem_groupsOf hg hc))
      (le_trans (sumSpans_group_le chunks g hg) hsum)
      (groupsOf_length_le 128 chunks g hg)
  have hbuilt0 : ∀ g ∈ groupsOf 128 chunks,
      ((fun g => createIntermediateChunk K g 8 4096) g).isSome = true := by
    intro g hg
    obtain ⟨addrs, -, -, -, heq⟩ := hgroup g hg
    simp [heq]
  obtain ⟨built, hbuilt, hblen⟩ := mapMOption_eq_some_of_forall _ _ hbuilt0
  obtain ⟨-, hpt⟩ := mapMOption_some_getElem _ _ _ hbuilt
  have hptc : ∀ i (hi : i < (groupsOf 128 chunks).length) (hb : i < built.length),
      ∃ addrs : List (List Nat), (∀ x ∈ addrs, x.length = 32) ∧
        addrs.length = ((groupsOf 128 chunks)[i]).length ∧
        built[i] = ⟨addrs.flatten, sumSpans ((groupsOf 128 chunks)[i]), 4096, 8, none⟩ := by
    intro i hi hb
    obtain ⟨addrs, -, h32, halen, heq⟩ := hgroup ((groupsOf 128 chunks)[i]) (by simp)
    have hthis := hpt i hi hb
    rw [heq] at hthis
    injection hthis with hinj
    exact ⟨addrs, h32, halen, hinj.symm⟩
  have hbne : built ≠ [] := by
    intro h
    have : (groupsOf 128 chunks).length = 0 := by rw [← hblen, h]; rfl
    rw [length_groupsOf 128 (by omega) chunks] at this
    have hpos : 0 < chunks.length := List.length_pos.mpr hne
    omega
  have hcnt : built.length = (chunks.length + 127) / 128 := by
    rw [hblen, length_groupsOf 128 (by omega) chunks]
  have hvalid : ∀ p ∈ built, ValidChunk p := by
    intro p hp
    obtain ⟨i, hi, hpi⟩ := List.mem_iff_getElem.mp hp
    obtain ⟨addrs, h32, halen, heq⟩ := hptc i (by omega) hi
    rw [heq] at hpi
    subst hpi
    have hgmem : (groupsOf 128 chunks)[i] ∈ groupsOf 128 chunks := by simp
    have hgne : (groupsOf 128 chunks)[i] ≠ [] :=
      groupsOf_ne_nil_mem 128 chunks _ hgmem
    have hgle : ((groupsOf 128 chunks)[i]).length ≤ 128 :=
      groupsOf_length_le 128 chunks _ hgmem
    refine ⟨rfl, rfl, ?_, ?_⟩
    · show (addrs.flatten).length ≤ 4096
      rw [flatten_length_const addrs 32 h32, halen]
      omega
    · show 1 ≤ sumSpans ((groupsOf 128 chunks)[i])
      exact one_le_sumSpans hgne
        (fun c hc => (hval c (mem_of_mem_groupsOf hgmem hc)).2.2.2)
  have hsums : sumSpans built = sumSpans chunks := by
    have hmapeq : built.map Chunk.spanValue = (groupsOf 128 chunks).map sumSpans := by
      refine List.ext_getElem (by simp [hblen]) ?_
      intro i h1 h2
      simp only [List.getElem_map]
      obtain ⟨addrs, -, -, heq⟩ := hptc i (by simpa using h2) (by simpa using h1)
      rw [heq]
    rw [sumSpans, hmapeq, ← sumSpans_flatten, join_groupsOf 128 (by omega) chunks]
  refine ⟨built, hbuilt, hbne, hcnt, hvalid, hsums, ?_⟩
  obtain ⟨c0, rest, hch⟩ : ∃ c0 rest, chunks = c0 :: rest := by
    rcases chunks with _ | ⟨c0, rest⟩
    · exact absurd rfl hne
    · exact ⟨c0, rest, rfl⟩
  subst hch
  obtain ⟨h4096, h8, -, -⟩ := hval c0 (by simp)
  rw [nextBmtLevel]
  simp only [h4096, h8, SEGMENT_SIZE]
  norm_num
  rw [hbuilt, Option.some_bind]
  rcases carrier with _ | c
  · rfl
  · by_cases hmod : built.length % 128 = 0 <;> simp [hmod]

theorem popCarrierChunk_spec (chunks : List Chunk)
    (hval : ∀ c ∈ chunks, ValidChunk c) :
    popCarrierChunk chunks =
      if 2 ≤ chunks.length ∧ chunks.length % 128 = 1
      then (chunks.dropLast, chunks.getLast?) else (chunks, none) := by
  rw [popCarrierChunk]
  rcases Nat.lt_or_ge chunks.length 2 with h2 | h2
  · rw [if_pos (by omega), if_neg (by rintro ⟨h, -⟩; omega)]
  · rw [if_neg (by omega)]
    obtain ⟨c0, rest, hch⟩ : ∃ c0 rest, chunks = c0 :: rest := by
      rcases chunks with _ | ⟨c0, rest⟩
      · simp at h2
      · exact ⟨c0, rest, rfl⟩
    have hhead : (chunks.headD dummyChunk).maxPayloadLength = 4096 := by
      rw [hch]
      exact (hval c0 (by rw [hch]; simp)).1
    rw [hhead]
    simp only [SEGMENT_SIZE]
    norm_num
    by_cases hmod : chunks.length % 128 = 1
    · rw [if_pos hmod, if_pos ⟨h2, hmod⟩]
    · rw [if_neg hmod, if_neg (by rintro ⟨-, h⟩; exact hmod h)]

/-- C10: the carrier rules of one level step, confirmed.  With an incoming
carrier, the carrier is appended exactly when the new level's length is not
a multiple of the fanout (and then none propagates), otherwise it
propagates unchanged; with no incoming carrier, the last chunk is popped
exactly when the new level has more than one chunk and its length is
congruent to 1 modulo the fanout. -/
theorem c10_carrier_rules (K : HashFn) (chunks : List Chunk) (cc : Chunk)
    (hne : chunks ≠ []) (hval : ∀ c ∈ chunks, ValidChunk c)
    (hsum : sumSpans chunks ≤ MAX_SPAN_LENGTH) :
    ∃ built,
      mapMOption (fun g => createIntermediateChunk K g 8 4096)
        (groupsOf 128 chunks) = some built ∧
      nextBmtLevel K chunks (some cc) = some
        (if built.length % 128 ≠ 0 then (built ++ [cc], none) else (built, some cc)) ∧
      nextBmtLevel K chunks none = some
        (if 2 ≤ built.length ∧ built.length % 128 = 1
         then (built.dropLast, built.getLast?) else (built, none)) := by
  obtain ⟨built, hbuilt, -, -, hvalid, -, heq1⟩ :=
    nextBmtLevel_spec K chunks (some cc) hne hval hsum
  obtain ⟨built2, hbuilt2, -, -, -, -, heq2⟩ :=
    nextBmtLevel_spec K chunks none hne hval hsum
  rw [hbuilt] at hbuilt2
  injection hbuilt2 with hb2
  subst hb2
  exact ⟨built, hbuilt, heq1, by rw [heq2, popCarrierChunk_spec built hvalid]⟩

/-- The two example chunks used by the witnesses below. -/
def chunkW1 : Chunk := ⟨[5], 1, 4096, 8, none⟩

def chunkW2 : Chunk := ⟨[6], 2, 4096, 8, none⟩

/-- Witness for C10 at a concrete two-chunk level with a concrete carrier. -/
theorem c10_carrier_rules_witness :
    ([chunkW1, chunkW2] ≠ [] ∧ sumSpans [chunkW1, chunkW2] ≤ MAX_SPAN_LENGTH) ∧
      ∃ built,
        mapMOption (fun g => createIntermediateChunk kZero g 8 4096)
          (groupsOf 128 [chunkW1, chunkW2]) = some built ∧
        nextBmtLevel kZero [chunkW1, chunkW2] (some chunkW1) = some
          (if built.length % 128 ≠ 0 then (built ++ [chunkW1], none)
           else (built, some chunkW1)) ∧
        nextBmtLevel kZero [chunkW1, chunkW2] none = some
          (if 2 ≤ built.length ∧ built.length % 128 = 1
           then (built.dropLast, built.getLast?) else (built, none)) :=
  ⟨⟨by simp, by decide⟩,
    c10_carrier_rules kZero [chunkW1, chunkW2] chunkW1 (by simp)
      (by
        intro c hc
        rcases List.mem_cons.mp hc with rfl | hc
        · exact ⟨rfl, rfl, by norm_num [chunkW1], by norm_num [chunkW1]⟩
        · rcases List.mem_cons.mp hc with rfl | hc
          · exact ⟨rfl, rfl, by norm_num [chunkW2], by norm_num [chunkW2]⟩
          · simp at hc)
      (by decide)⟩

/-- C8: span additivity, confirmed.  Every parent chunk built by
`createIntermediateChunk` during a level step carries the concatenation of
its children's addresses as payload and records the sum of the children's
decoded span values, and decoding the parent's own span gives back exactly
that sum (for every group of every level built from valid chunks). -/
theorem c8_intermediate_chunk_span_additive (K : HashFn) (chunks : List Chunk)
    (hne : chunks ≠ []) (hval : ∀ c ∈ chunks, ValidChunk c)
    (hsum : sumSpans chunks ≤ MAX_SPAN_LENGTH) :
    ∃ built,
      mapMOption (fun g => createIntermediateChunk K g 8 4096)
        (groupsOf 128 chunks) = some built ∧
      built.length = (groupsOf 128 chunks).length ∧
      ∀ i (hg : i < (groupsOf 128 chunks).length) (hb : i < built.length),
        ∃ addrs,
          mapMOption (Chunk.address K) ((groupsOf 128 chunks)[i]) = some addrs ∧
          mapMOption (fun c => (Chunk.span c).bind getSpanValue)
            ((groupsOf 128 chunks)[i]) =
            some (((groupsOf 128 chunks)[i]).map Chunk.spanValue) ∧
          (built[i]).payload = addrs.flatten ∧
          (built[i]).spanValue = sumSpans ((groupsOf 128 chunks)[i]) ∧
          (Chunk.span (built[i])).bind getSpanValue =
            some (sumSpans ((groupsOf 128 chunks)[i])) := by
  have hgroup : ∀ g ∈ groupsOf 128 chunks,
      ∃ addrs, mapMOption (Chunk.address K) g = some addrs ∧
        (∀ x ∈ addrs, x.length = 32) ∧ addrs.length = g.length ∧
        createIntermediateChunk K g 8 4096 =
          some ⟨addrs.flatten, sumSpans g, 4096, 8, none⟩ := by
    intro g hg
    exact createIntermediateChunk_some K g
      (groupsOf_ne_nil_mem 128 chunks g hg)
      (fun c hc => hval c (mem_of_mem_groupsOf hg hc))
      (le_trans (sumSpans_group_le chunks g hg) hsum)
      (groupsOf_length_le 128 chunks g hg)
  have hbuilt0 : ∀ g ∈ groupsOf 128 chunks,
      ((fun g => createIntermediateChunk K g 8 4096) g).isSome = true := by
    intro g hg
    obtain ⟨addrs, -, -, -, heq⟩ := hgroup g hg
    simp [heq]
  obtain ⟨built, hbuilt, hblen⟩ := mapMOption_eq_some_of_forall _ _ hbuilt0
  obtain ⟨-, hpt⟩ := mapMOption_some_getElem _ _ _ hbuilt
  refine ⟨built, hbuilt, hblen, ?_⟩
  intro i hg hb
  have hgmem : (groupsOf 128 chunks)[i] ∈ groupsOf 128 chunks := by simp
  obtain ⟨addrs, haddrs, -, -, heq⟩ := hgroup ((groupsOf 128 chunks)[i]) hgmem
  have hthis := hpt i hg hb
  rw [heq] at hthis
  injection hthis with hinj
  have hgsum : sumSpans ((groupsOf 128 chunks)[i]) ≤ MAX_SPAN_LENGTH :=
    le_trans (sumSpans_group_le chunks _ hgmem) hsum
  refine ⟨addrs, haddrs, ?_, ?_, ?_, ?_⟩
  · exact mapMOption_eq_map _ _ _ (fun c hc =>
      chunkSpan_decode c (hval c (mem_of_mem_groupsOf hgmem hc)).2.1
        (le_trans (mem_spanValue_le_sumSpans hc) hgsum))
  · rw [← hinj]
  · rw [← hinj]
  · rw [← hinj]
    exact chunkSpan_decode _ rfl hgsum

/-- Witness for C8 at a concrete two-chunk level: one group, whose parent
records span value 3 = 1 + 2. -/
theorem c8_intermediate_chunk_span_additive_witness :
    ([chunkW1, chunkW2] ≠ [] ∧ sumSpans [chunkW1, chunkW2] ≤ MAX_SPAN_LENGTH) ∧
      ∃ built,
        mapMOption (fun g => createIntermediateChunk kZero g 8 4096)
          (groupsOf 128 [chunkW1, chunkW2]) = some built ∧
        built.length = (groupsOf 128 [chunkW1, chunkW2]).length ∧
        ∀ i (hg : i < (groupsOf 128 [chunkW1, chunkW2]).length)
            (hb : i < built.length),
          ∃ addrs,
            mapMOption (Chunk.address kZero)
              ((groupsOf 128 [chunkW1, chunkW2])[i]) = some addrs ∧
            mapMOption (fun c => (Chunk.span c).bind getSpanValue)
              ((groupsOf 128 [chunkW1, chunkW2])[i]) =
              some (((groupsOf 128 [chunkW1, chunkW2])[i]).map Chunk.spanValue) ∧
            (built[i]).payload = addrs.flatten ∧
            (built[i]).spanValue = sumSpans ((groupsOf 128 [chunkW1, chunkW2])[i]) ∧
            (Chunk.span (built[i])).bind getSpanValue =
              some (sumSpans ((groupsOf 128 [chunkW1, chunkW2])[i])) :=
  ⟨⟨by simp, by decide⟩,
    c8_intermediate_chunk_span_additive kZero [chunkW1, chunkW2] (by simp)
      (by
        intro c hc
        rcases List.mem_cons.mp hc with rfl | hc
        · exact ⟨rfl, rfl, by norm_num [chunkW1], by norm_num [chunkW1]⟩
        · rcases List.mem_cons.mp hc with rfl | hc
          · exact ⟨rfl, rfl, by norm_num [chunkW2], by norm_num [chunkW2]⟩
          · simp at hc)
      (by decide)⟩

/-- 1 when a carrier is pending, else 0: the extra measure bit of the level
loop. -/
def carrierBit : Option Chunk → Nat
  | none => 0
  | some _ => 1

/-- The span total held by a pending carrier. -/
def carrierSum : Option Chunk → Nat
  | none => 0
  | some c => c.spanValue

/-- The invariant maintained by the level loops of `bmtRootChunk` and
`bmt`: a nonempty valid level, a valid carrier that can only be pending
while the level has at least two chunks, and a bounded span total. -/
def ValidState (cur : List Chunk) (carrier : Option Chunk) : Prop :=
  cur ≠ [] ∧ (∀ c ∈ cur, ValidChunk c) ∧
    (∀ c, carrier = some c → ValidChunk c ∧ 2 ≤ cur.length) ∧
    sumSpans cur + carrierSum carrier ≤ MAX_SPAN_LENGTH

theorem sumSpans_dropLast (l : List Chunk) (h : l ≠ []) :
    sumSpans l.dropLast + (l.getLast h).spanValue = sumSpans l := by
  conv_rhs => rw [← List.dropLast_append_getLast h]
  rw [sumSpans_append]
  simp [sumSpans]

/-- One iteration of the level loop from a state with at least two chunks:
the step succeeds, preserves the invariant and strictly decreases the
measure `2·length + carrierBit`. -/
theorem nextBmtLevel_step (K : HashFn) (cur : List Chunk) (carrier : Option Chunk)
    (h : ValidState cur carrier) (h2 : 2 ≤ cur.length) :
    ∃ n c, nextBmtLevel K cur carrier = some (n, c) ∧ ValidState n c ∧
      2 * n.length + carrierBit c < 2 * cur.length + carrierBit carrier := by
  obtain ⟨hne, hval, hcar, hsum⟩ := h
  have hsum' : sumSpans cur ≤ MAX_SPAN_LENGTH := by
    have := hsum
    omega
  obtain ⟨built, hbuilt, hbne, hcnt, hvalid, hsums, heq⟩ :=
    nextBmtLevel_spec K cur carrier hne hval hsum'
  have hbpos : 1 ≤ built.length := List.length_pos.mpr hbne
  rcases carrier with _ | cc
  · have heqn : nextBmtLevel K cur none = some (popCarrierChunk built) := heq
    simp only [carrierSum] at hsum
    rw [popCarrierChunk_spec built hvalid] at heqn
    by_cases hpop : 2 ≤ built.length ∧ built.length % 128 = 1
    · have h129 : 129 ≤ built.length := by
        obtain ⟨ha, hb⟩ := hpop
        omega
      have hlast : built.getLast? = some (built.getLast hbne) :=
        List.getLast?_eq_getLast built hbne
      rw [if_pos hpop, hlast] at heqn
      refine ⟨built.dropLast, some (built.getLast hbne), heqn, ?_, ?_⟩
      · refine ⟨?_, ?_, ?_, ?_⟩
        · have hdl : built.dropLast.length = built.length - 1 :=
            List.length_dropLast built
          intro hnil
          rw [hnil] at hdl
          simp at hdl
          omega
        · exact fun c hc => hvalid c ((List.dropLast_sublist built).subset hc)
        · intro c hc
          injection hc with hc
          subst hc
          refine ⟨hvalid _ (List.getLast_mem hbne), ?_⟩
          rw [List.length_dropLast]
          omega
        · rw [carrierSum, sumSpans_dropLast built hbne, hsums]
          omega
      · simp only [carrierBit, List.length_dropLast]
        omega
    · rw [if_neg hpop] at heqn
      refine ⟨built, none, heqn, ⟨hbne, hvalid, by simp, ?_⟩, ?_⟩
      · rw [carrierSum, hsums]
        omega
      · simp only [carrierBit]
        omega
  · obtain ⟨hccval, -⟩ := hcar cc rfl
    simp only [carrierSum] at hsum
    by_cases hmod : built.length % 128 = 0
    · have heqs : nextBmtLevel K cur (some cc) = some (built, some cc) := by
        rw [heq]
        show some (if built.length % 128 ≠ 0 then (built ++ [cc], none)
          else (built, some cc)) = _
        rw [if_neg (by omega)]
      refine ⟨built, some cc, heqs, ⟨hbne, hvalid, ?_, ?_⟩, ?_⟩
      · intro c hc
        injection hc with hc
        subst hc
        exact ⟨hccval, by omega⟩
      · rw [carrierSum, hsums]
        omega
      · simp only [carrierBit]
        omega
    · have heqs : nextBmtLevel K cur (some cc) = some (built ++ [cc], none) := by
        rw [heq]
        show some (if built.length % 128 ≠ 0 then (built ++ [cc], none)
          else (built, some cc)) = _
        rw [if_pos (by omega)]
      refine ⟨built ++ [cc], none, heqs, ⟨by simp, ?_, by simp, ?_⟩, ?_⟩
      · intro c hc
        rcases List.mem_append.mp hc with hc | hc
        · exact hvalid c hc
        · rw [List.mem_singleton.mp hc]
          exact hccval
      · rw [carrierSum, sumSpans_append]
        have h1 : sumSpans [cc] = cc.spanValue := by
          simp [sumSpans]
        rw [h1, hsums]
        omega
      · simp only [carrierBit, List.length_append, List.length_singleton]
        omega

/-- The two level loops of `src/file.ts` run in lockstep: from any valid
state with enough fuel, the root-only loop of `bmtRootChunk` returns a
root chunk and the tree loop of `bmt` returns a nonempty level stack whose
last level is exactly that root chunk alone. -/
theorem loops_agree (K : HashFn) : ∀ (fuel : Nat) (cur : List Chunk)
    (carrier : Option Chunk), ValidState cur carrier →
    2 * cur.length + carrierBit carrier < fuel →
    ∃ r levels, bmtRootChunkLoop K fuel cur carrier = some r ∧
      fileBmtLoop K fuel cur carrier = some levels ∧
      levels ≠ [] ∧ levels.getLast? = some [r] := by
  intro fuel
  induction fuel with
  | zero =>
    intro cur carrier _ hlt
    omega
  | succ f ih =>
    intro cur carrier hvs hlt
    obtain ⟨hne, hval, hcar, hsum⟩ := hvs
    by_cases h1 : cur.length = 1
    · obtain ⟨a, rfl⟩ := List.length_eq_one.mp h1
      have hcn : carrier = none := by
        rcases carrier with _ | c
        · rfl
        · have h2 := (hcar c rfl).2
          simp at h2
      subst hcn
      refine ⟨a, [[a]], ?_, ?_, by simp, by simp⟩
      · rw [bmtRootChunkLoop.eq_def]
        simp
      · rw [fileBmtLoop.eq_def]
        simp
    · have h2 : 2 ≤ cur.length := by
        have := List.length_pos.mpr hne
        omega
      obtain ⟨n, c, hstep, hvs', hdec⟩ :=
        nextBmtLevel_step K cur carrier ⟨hne, hval, hcar, hsum⟩ h2
      obtain ⟨r, levels, hr, hl, hlne, hlast⟩ := ih n c hvs' (by omega)
      refine ⟨r, cur :: levels, ?_, ?_, by simp, ?_⟩
      · rw [bmtRootChunkLoop.eq_def]
        rw [if_neg (fun hcon => h1 hcon.1)]
        show (nextBmtLevel K cur carrier).bind
          (fun nc => bmtRootChunkLoop K f nc.1 nc.2) = some r
        rw [hstep, Option.some_bind]
        exact hr
      · rw [fileBmtLoop.eq_def]
        rw [if_neg h1]
        show (nextBmtLevel K cur carrier).bind
          (fun nc => (fileBmtLoop K f nc.1 nc.2).map (cur :: ·)) =
            some (cur :: levels)
        rw [hstep, Option.some_bind, hl]
        rfl
      · rcases levels with _ | ⟨l0, ls⟩
        · exact absurd rfl hlne
        · rw [List.getLast?_cons_cons]
          exact hlast

/-- C9: For every non-empty list of valid leaf chunks (as produced by the
file builder: default fanout parameters and positive spans summing within
the span range), the full-tree construction and the root-only construction
of `src/file.ts` agree despite their different loop exits: `bmt(leaves)`
succeeds, its last level holds exactly one chunk, and that chunk is
`bmtRootChunk(leaves)`. -/
theorem c9_bmt_last_level_is_root (K : HashFn) (fuel : Nat)
    (leaves : List Chunk) (hne : leaves ≠ [])
    (hval : ∀ c ∈ leaves, ValidChunk c)
    (hsum : sumSpans leaves ≤ MAX_SPAN_LENGTH)
    (hfuel : 2 * leaves.length + 2 ≤ fuel) :
    ∃ r levels, bmtRootChunk K fuel leaves = some r ∧
      fileBmt K fuel leaves = some levels ∧
      levels ≠ [] ∧ levels.getLast? = some [r] := by
  have hie : leaves.isEmpty = false := by
    rcases leaves with _ | ⟨c0, rest⟩
    · exact absurd rfl hne
    · rfl
  rw [bmtRootChunk, fileBmt, hie]
  simp only [Bool.false_eq_true, if_false]
  rw [popCarrierChunk_spec leaves hval]
  by_cases hpop : 2 ≤ leaves.length ∧ leaves.length % 128 = 1
  · rw [if_pos hpop]
    have h129 : 129 ≤ leaves.length := by
      obtain ⟨ha, hb⟩ := hpop
      omega
    have hlast : leaves.getLast? = some (leaves.getLast hne) :=
      List.getLast?_eq_getLast leaves hne
    rw [hlast]
    dsimp only
    have hdl : leaves.dropLast.length = leaves.length - 1 :=
      List.length_dropLast leaves
    apply loops_agree
    · refine ⟨?_, ?_, ?_, ?_⟩
      · intro hnil
        rw [hnil] at hdl
        simp at hdl
        omega
      · exact fun c hc => hval c ((List.dropLast_sublist leaves).subset hc)
      · intro c hc
        injection hc with hc
        subst hc
        refine ⟨hval _ (List.getLast_mem hne), ?_⟩
        omega
      · rw [carrierSum, sumSpans_dropLast leaves hne]
        exact hsum
    · simp only [carrierBit]
      omega
  · rw [if_neg hpop]
    dsimp only
    apply loops_agree
    · refine ⟨hne, hval, by simp, ?_⟩
      rw [carrierSum]
      omega
    · simp only [carrierBit]
      omega

/-- Witness for C9 at a concrete one-chunk leaf level. -/
theorem c9_bmt_last_level_is_root_witness :
    ∃ r levels, bmtRootChunk kZero 4 [chunkW1] = some r ∧
      fileBmt kZero 4 [chunkW1] = some levels ∧
      levels ≠ [] ∧ levels.getLast? = some [r] :=
  c9_bmt_last_level_is_root kZero 4 [chunkW1]
    (List.cons_ne_nil _ _)
    (fun c hc => by
      rw [List.mem_singleton.mp hc]
      exact ⟨rfl, rfl, by decide, by decide⟩)
    (by decide)
    (by decide)
